import Mathlib

/-!
Verification of the JSON parser in src/src/json.rs.

Embedding conventions:
* The Rust parser reads the input through `src.as_bytes()` and casts each
  byte to `char` (`c as char`).  We therefore model the input as a
  `List Nat` of byte values, and the characters pushed onto strings as
  `Nat` code points (for a byte this is the byte value itself, exactly as
  `u8 as char` behaves).
* The Rust `Context` stores `idx` into a fixed slice plus `line`/`col`.
  We represent the cursor by the remaining suffix of the input together
  with `line` and `col`; `peek` reads the head of the suffix and `consume`
  drops it, which is the same observable behaviour.
* `f64` arithmetic is modelled by exact rational arithmetic (`ℚ`).  All
  concrete inputs used in the theorems below involve only values on which
  IEEE double arithmetic is exact (small integers, halves), so the model
  agrees with the code there.
* `BTreeMap<String, Value>` is modelled as an association list kept sorted
  by byte-lexicographic key order, with insert overwriting an equal key.
* Fallible Rust code returning `Result<_, String>` becomes `Except PErr _`;
  the `unreachable!()` panic in `parse_object` is the distinguished error
  `PErr.unreachablePanic`.
* The mutual recursion `parse_value` / `parse_array` / `parse_object` is
  given a fuel parameter; `none` means the fuel ran out.  The theorem for
  C9 shows the fuel bound used by `parse` is always sufficient.
-/

/-- Errors: ordinary `Result::Err(String)` values, or the `unreachable!()`
panic in `parse_object`. -/
inductive PErr where
  | err (s : String)
  | unreachablePanic
deriving DecidableEq

/-- The `Value` enum of json.rs (lines 3-12).  Strings are lists of code
points; numbers are modelled as exact rationals; objects are sorted
association lists standing for `BTreeMap<String, Value>`. -/
inductive Value where
  | Object (entries : List (List Nat × Value))
  | Array (elems : List Value)
  | String (chars : List Nat)
  | Number (q : ℚ)
  | True
  | False
  | Null

/-- The `Context` struct (lines 14-19): remaining input bytes plus the
1-based line and column of the cursor. -/
structure Ctx where
  rem : List Nat
  line : Nat
  col : Nat
deriving DecidableEq

/-- `Context::error` (lines 62-64): `format!("{} at {}:{}", err, line, col)`. -/
def fmtErrLC (e : String) (l c : Nat) : String :=
  e ++ " at " ++ toString l ++ ":" ++ toString c

def Ctx.error (st : Ctx) (e : String) : String :=
  fmtErrLC e st.line st.col

/-- `Context::peek` (lines 31-38). -/
def Ctx.peek (st : Ctx) : Except PErr Nat :=
  match st.rem with
  | [] => .error (.err (st.error "unexpected EOF"))
  | b :: _ => .ok b

/-- `Context::consume` (lines 46-56): peek, then advance, bumping the line
on a line feed (byte 10) and the column otherwise. -/
def Ctx.consume (st : Ctx) : Except PErr Ctx :=
  match st.rem with
  | [] => .error (.err (st.error "unexpected EOF"))
  | b :: rest =>
    .ok (if b = 10 then ⟨rest, st.line + 1, 1⟩ else ⟨rest, st.line, st.col + 1⟩)

/-- `Context::next` (lines 40-44): peek then consume. -/
def Ctx.next (st : Ctx) : Except PErr (Nat × Ctx) :=
  match st.peek with
  | .error e => .error e
  | .ok c =>
    match st.consume with
    | .error e => .error e
    | .ok st' => .ok (c, st')

/-- `Context::is_next` (lines 58-60). -/
def Ctx.isNext (st : Ctx) : Bool :=
  !st.rem.isEmpty

/-- The line/column update performed by `consume`, as a pure function used
by the loop helpers below. -/
def adv (b l c : Nat) : Nat × Nat :=
  if b = 10 then (l + 1, 1) else (l, c + 1)

/-- Loop body of `parse_whitespace` (lines 67-75): consume bytes
0x20, 0x0a, 0x0d, 0x09 while the input lasts. -/
def wsLoop : List Nat → Nat → Nat → Ctx
  | [], l, c => ⟨[], l, c⟩
  | b :: rest, l, c =>
    if b = 0x20 ∨ b = 0x0a ∨ b = 0x0d ∨ b = 0x09 then
      let p := adv b l c
      wsLoop rest p.1 p.2
    else ⟨b :: rest, l, c⟩

/-- `parse_whitespace` (lines 67-75).  Every `peek` in the Rust loop is
guarded by `is_next`, so the function never returns an error; the
`Except` shape mirrors its `Result<(), String>` signature. -/
def parseWhitespace (st : Ctx) : Except PErr Ctx :=
  .ok (wsLoop st.rem st.line st.col)

def charStr (b : Nat) : String :=
  String.singleton (Char.ofNat b)

/-- `parse_char` (lines 77-83): `next`, compare, error with position taken
after the consume. -/
def parseChar (expected : Nat) (st : Ctx) : Except PErr Ctx :=
  match st.next with
  | .error e => .error e
  | .ok (n, st') =>
    if n = expected then .ok st'
    else .error (.err (st'.error ("expected '" ++ charStr expected ++ "'")))

/-- `parse_word` (lines 85-90): `parse_char` for each character in order. -/
def parseWord : List Nat → Ctx → Except PErr Ctx
  | [], st => .ok st
  | b :: rest, st =>
    match parseChar b st with
    | .error e => .error e
    | .ok st' => parseWord rest st'

/-- The three hex-digit ranges of the `\u` escape (lines 111-120):
`0`..`9`, `A`..`F`, `a`..`f`; `none` means "invalid hex digit". -/
def hexVal (d : Nat) : Option Nat :=
  if 48 ≤ d ∧ d ≤ 57 then some (d - 48)
  else if 65 ≤ d ∧ d ≤ 70 then some (d - 55)
  else if 97 ≤ d ∧ d ≤ 102 then some (d - 87)
  else none

/-- The `for i in 0..4` hex-digit loop of the `\u` escape (lines 108-123),
counting down the digits still to read; the accumulated code unit is
`n += v * 16^(4-i-1)`, i.e. `v * 16 ^ i` when `i` digits remain after this
one.  Errors: "invalid hex digit" after consuming the offending byte, or
the end-of-input error. -/
def hexQuad : Nat → Nat → List Nat → Nat → Nat →
    Except PErr (Nat × List Nat × Nat × Nat)
  | 0, n, r, l, c => .ok (n, r, l, c)
  | i + 1, n, r, l, c =>
    match r with
    | [] => .error (.err (fmtErrLC "unexpected EOF" l c))
    | d :: rest =>
      let p := adv d l c
      match hexVal d with
      | none => .error (.err (fmtErrLC "invalid hex digit" p.1 p.2))
      | some v => hexQuad i (n + v * 16 ^ i) rest p.1 p.2

theorem hexQuad_rem_le : ∀ (i n : Nat) (r : List Nat) (l c m : Nat)
    (r' : List Nat) (l' c' : Nat), hexQuad i n r l c = .ok (m, r', l', c') →
    r'.length ≤ r.length := by
  intro i
  induction i with
  | zero =>
    intro n r l c m r' l' c' h
    cases h
    exact le_refl _
  | succ i ih =>
    intro n r l c m r' l' c' h
    cases r with
    | nil => cases h
    | cons d rest =>
      simp only [hexQuad] at h
      cases hv : hexVal d with
      | none => rw [hv] at h; cases h
      | some v =>
        rw [hv] at h
        have := ih _ _ _ _ _ _ _ _ h
        simp at this ⊢
        omega

set_option linter.unusedVariables false in
/-- The scan loop of `parse_string` (lines 95-133).  `acc` is the
accumulated string (list of pushed code points).  `char::from_u32` fails
exactly on the surrogate range 0xD800..=0xDFFF since the code unit is at
most 0xFFFF. -/
def stringLoop : List Nat → Nat → Nat → List Nat → Except PErr (Value × Ctx)
  | [], l, c, _ => .error (.err (fmtErrLC "unexpected EOF" l c))
  | b :: rest, l, c, acc =>
    let p1 := adv b l c
    if b = 34 then .ok (Value.String acc, ⟨rest, p1.1, p1.2⟩)
    else if b = 92 then
      match rest with
      | [] => .error (.err (fmtErrLC "unexpected EOF" p1.1 p1.2))
      | e :: rest2 =>
        let p2 := adv e p1.1 p1.2
        if e = 34 then stringLoop rest2 p2.1 p2.2 (acc ++ [34])
        else if e = 92 then stringLoop rest2 p2.1 p2.2 (acc ++ [92])
        else if e = 47 then stringLoop rest2 p2.1 p2.2 (acc ++ [47])
        else if e = 98 then stringLoop rest2 p2.1 p2.2 (acc ++ [0x08])
        else if e = 102 then stringLoop rest2 p2.1 p2.2 (acc ++ [0x0c])
        else if e = 110 then stringLoop rest2 p2.1 p2.2 (acc ++ [0x0a])
        else if e = 114 then stringLoop rest2 p2.1 p2.2 (acc ++ [0x0d])
        else if e = 116 then stringLoop rest2 p2.1 p2.2 (acc ++ [0x09])
        else if e = 117 then
          match hq : hexQuad 4 0 rest2 p2.1 p2.2 with
          | .error e2 => .error e2
          | .ok (n, r6, l6, c6) =>
            if 0xd800 ≤ n ∧ n ≤ 0xdfff then
              .error (.err (fmtErrLC "invalid character" l6 c6))
            else stringLoop r6 l6 c6 (acc ++ [n])
        else .error (.err (fmtErrLC "invalid character escape" p2.1 p2.2))
    else stringLoop rest p1.1 p1.2 (acc ++ [b])
termination_by r _ _ _ => r.length
decreasing_by
  all_goals simp
  all_goals try omega
  all_goals have := hexQuad_rem_le _ _ _ _ _ _ _ _ _ (by assumption)
  all_goals omega

/-- `parse_string` (lines 92-134): opening quote, then the scan loop. -/
def parseString (st : Ctx) : Except PErr (Value × Ctx) :=
  match parseChar 34 st with
  | .error e => .error e
  | .ok st' => stringLoop st'.rem st'.line st'.col []

/-- Digit-collection loop of `parse_digits` (lines 136-141): while the next
byte is an ASCII digit, consume and collect it.  The `peek` inside the
`while` condition propagates an error at end of input, so the loop errors
there rather than stopping. -/
def digitsGo : List Nat → Nat → Nat → List Nat → Except PErr (List Nat × Ctx)
  | [], l, c, _ => .error (.err (fmtErrLC "unexpected EOF" l c))
  | b :: rest, l, c, acc =>
    if 48 ≤ b ∧ b ≤ 57 then
      let p := adv b l c
      digitsGo rest p.1 p.2 (acc ++ [b])
    else .ok (acc, ⟨b :: rest, l, c⟩)

/-- Accumulation of `parse_digits` (lines 142-146):
`num += 10^(len-i-1) * (c_i - 48)` over the collected digit characters,
exact in ℚ; `digitsValF` below is the binary64 version of the same loop,
which can overflow to `+∞`. -/
def digitsVal (numStr : List Nat) : ℚ :=
  numStr.enum.foldl
    (fun num p => num + 10 ^ (numStr.length - p.1 - 1) * ((p.2 : ℚ) - 48)) 0

/-- `parse_digits` (lines 136-148). -/
def parseDigits (st : Ctx) : Except PErr (ℚ × Ctx) :=
  match digitsGo st.rem st.line st.col [] with
  | .error e => .error e
  | .ok (numStr, st') => .ok (digitsVal numStr, st')

theorem ceil_div_ten_lt {q : ℚ} (h : 1 < q) : ⌈q / 10⌉₊ < ⌈q⌉₊ := by
  have h2 : 2 ≤ ⌈q⌉₊ := by
    have := (Nat.lt_ceil (n := 1) (a := q)).mpr (by exact_mod_cast h)
    omega
  have hle : q ≤ (⌈q⌉₊ : ℚ) := Nat.le_ceil q
  have : q / 10 ≤ ((⌈q⌉₊ - 1 : ℕ) : ℚ) := by
    have hm : (2 : ℚ) ≤ (⌈q⌉₊ : ℚ) := by exact_mod_cast h2
    have hcast : ((⌈q⌉₊ - 1 : ℕ) : ℚ) = (⌈q⌉₊ : ℚ) - 1 := by
      push_cast [Nat.cast_sub (by omega : 1 ≤ ⌈q⌉₊)]
      ring
    rw [hcast]
    linarith
  have := Nat.ceil_le.mpr this
  omega

/-- The fraction-normalization loop of `parse_number` (lines 163-166):
`while fraction > 1 { fraction /= 10 }`.  Over ℚ this recursion is well
founded; `fracNormF` below is the binary64 version of the same loop,
which can run forever (claim C9). -/
def fracNorm (q : ℚ) : ℚ :=
  if 1 < q then fracNorm (q / 10) else q
termination_by ⌈q⌉₊
decreasing_by exact ceil_div_ten_lt (by assumption)

/-- `10_f64.powf(exp)` as used on line 185.  In every run of the parser the
exponent is an integer-valued rational (a digit accumulation times ±1), so
the power is `10 ^ exp.num`. -/
def powf10 (q : ℚ) : ℚ :=
  (10 : ℚ) ^ q.num

/-- The largest finite IEEE binary64 value, `(2^53 - 1) * 2^971`. -/
def f64Max : ℚ := (2 ^ 53 - 1) * 2 ^ 971

/-- Binary64 values as they arise in `parse_digits` and the fraction loop
of `parse_number`: exact finite rationals plus `+∞`.  In-range arithmetic
is modeled exactly, and an operation whose exact result exceeds the
largest finite double in magnitude overflows to `+∞`, the one feature of
`f64` that the exact-ℚ `digitsVal`/`fracNorm` lack and the one that
decides termination.  Rounding of in-range intermediates is immaterial
for the inputs considered: the one overflow event exceeds the binary64
range by a factor of five, far beyond any rounding error, and the `NaN`
cases (`∞ * 0`, `∞ - ∞`) never arise on the traced path. -/
inductive F64 where
  | fin (q : ℚ)
  | inf
deriving DecidableEq

/-- `f64` addition (the `num += ...` of json.rs line 145): `+∞` absorbs,
and a finite result past the binary64 range overflows to `+∞`. -/
def F64.add : F64 → F64 → F64
  | .inf, _ => .inf
  | _, .inf => .inf
  | .fin a, .fin b => if f64Max < |a + b| then .inf else .fin (a + b)

/-- `f64` multiplication (json.rs line 145). -/
def F64.mul : F64 → F64 → F64
  | .inf, _ => .inf
  | _, .inf => .inf
  | .fin a, .fin b => if f64Max < |a * b| then .inf else .fin (a * b)

/-- `fraction /= 10.0` (json.rs line 165); in binary64, `∞ / 10 = ∞`,
and dividing a finite double by 10 never overflows. -/
def F64.div10 : F64 → F64
  | .inf => .inf
  | .fin a => .fin (a / 10)

/-- The loop guard `fraction > 1_f64` (json.rs line 164); `∞ > 1` is
true in binary64. -/
def F64.gtOne : F64 → Bool
  | .inf => true
  | .fin a => decide (1 < a)

/-- `10_f64.powf` on the natural-number exponents `len - i - 1` used by
`parse_digits` (json.rs line 145): `10^k`, overflowing to `+∞` past the
binary64 range. -/
def powf10F (k : Nat) : F64 :=
  if f64Max < (10 : ℚ) ^ k then .inf else .fin (10 ^ k)

/-- The accumulation loop of `parse_digits` (json.rs lines 142-146) in
binary64: `for i in 0..len { num += 10.powf(len-i-1) * (digit_i - 48) }`,
with `i` counting up over the collected digit bytes. -/
def digitsValFGo (len : Nat) : Nat → List Nat → F64 → F64
  | _, [], num => num
  | i, d :: rest, num =>
    digitsValFGo len (i + 1) rest
      (num.add ((powf10F (len - i - 1)).mul (.fin ((d : ℚ) - 48))))

/-- The value accumulated by `parse_digits` in binary64; `digitsVal` is
the exact-ℚ idealization of the same loop. -/
def digitsValF (numStr : List Nat) : F64 :=
  digitsValFGo numStr.length 0 numStr (.fin 0)

/-- The fraction-normalization loop of `parse_number` (json.rs lines
164-166), `while fraction > 1.0 { fraction /= 10.0 }`, in binary64 and
indexed by an iteration budget: `none` means the loop is still running
after `n` iterations.  `fracNorm` is the exact-ℚ idealization, which
always terminates; this one need not (see claim C9). -/
def fracNormF : Nat → F64 → Option F64
  | 0, q => if q.gtOne then none else some q
  | n + 1, q => if q.gtOne then fracNormF n (q.div10) else some q

/-- `parse_number` (lines 150-189): sign applied to the integer part, then
optional fraction (normalized by `fracNorm` and added), then optional
exponent.  Note every `ctx.peek()?` propagates an end-of-input error. -/
def parseNumber (st : Ctx) : Except PErr (Value × Ctx) :=
  match st.peek with
  | .error e => .error e
  | .ok c =>
    match
      (if c = 45 then
        match st.consume with
        | .error e => .error e
        | .ok st1 =>
          match parseDigits st1 with
          | .error e => .error e
          | .ok (d, st2) => .ok ((-1 : ℚ) * d, st2)
      else if 48 ≤ c ∧ c ≤ 57 then parseDigits st
      else .error (.err (st.error "expected '-' or '0'..'9'")) :
        Except PErr (ℚ × Ctx)) with
    | .error e => .error e
    | .ok (num, st3) =>
      match st3.peek with
      | .error e => .error e
      | .ok c2 =>
        match
          (if c2 = 46 then
            match st3.consume with
            | .error e => .error e
            | .ok st4 =>
              match parseDigits st4 with
              | .error e => .error e
              | .ok (fraction, st5) => .ok (num + fracNorm fraction, st5)
          else .ok (num, st3) : Except PErr (ℚ × Ctx)) with
        | .error e => .error e
        | .ok (num2, st6) =>
          match st6.peek with
          | .error e => .error e
          | .ok c3 =>
            if c3 = 101 ∨ c3 = 69 then
              match st6.consume with
              | .error e => .error e
              | .ok st7 =>
                match st7.peek with
                | .error e => .error e
                | .ok c4 =>
                  match
                    (if c4 = 43 then
                      match st7.consume with
                      | .error e => .error e
                      | .ok st8 => .ok ((1 : ℚ), st8)
                    else if c4 = 45 then
                      match st7.consume with
                      | .error e => .error e
                      | .ok st8 => .ok ((-1 : ℚ), st8)
                    else .ok ((1 : ℚ), st7) : Except PErr (ℚ × Ctx)) with
                  | .error e => .error e
                  | .ok (sign, st9) =>
                    match parseDigits st9 with
                    | .error e => .error e
                    | .ok (d, st10) =>
                      .ok (Value.Number (num2 * powf10 (sign * d)), st10)
            else .ok (Value.Number num2, st6)

/-- `parse_intrisic` (lines 191-207); the Rust function name is kept,
including its typo. -/
def parseIntrisic (st : Ctx) : Except PErr (Value × Ctx) :=
  match st.peek with
  | .error e => .error e
  | .ok c =>
    if c = 116 then
      match parseWord [116, 114, 117, 101] st with
      | .error e => .error e
      | .ok st' => .ok (Value.True, st')
    else if c = 102 then
      match parseWord [102, 97, 108, 115, 101] st with
      | .error e => .error e
      | .ok st' => .ok (Value.False, st')
    else if c = 110 then
      match parseWord [110, 117, 108, 108] st with
      | .error e => .error e
      | .ok st' => .ok (Value.Null, st')
    else .error (.err (st.error "expected 'true', 'false', or 'null'"))

/-- Byte-lexicographic order on keys, matching `String` order in Rust
(UTF-8 byte order equals code-point order). -/
def ltKey : List Nat → List Nat → Bool
  | [], [] => false
  | [], _ :: _ => true
  | _ :: _, [] => false
  | a :: as_, b :: bs => if a < b then true else if b < a then false else ltKey as_ bs

/-- `BTreeMap::insert` on the sorted-association-list model: keeps keys
sorted, overwrites an equal key (last write wins). -/
def btInsert (k : List Nat) (v : Value) :
    List (List Nat × Value) → List (List Nat × Value)
  | [] => [(k, v)]
  | (k', v') :: rest =>
    if ltKey k k' then (k, v) :: (k', v') :: rest
    else if k = k' then (k, v) :: rest
    else (k', v') :: btInsert k v rest

/-- Which of the mutually recursive parsing routines is running.
`arrayLoop` carries the `vals` vector of `parse_array`; `objLoop` carries
the `obj_vals` map of `parse_object`. -/
inductive PMode where
  | value
  | array
  | arrayLoop (vals : List Value)
  | object
  | objLoop (obj : List (List Nat × Value))

/-- The mutually recursive routines `parse_value` (lines 270-279),
`parse_array` with its element loop (lines 209-230) and `parse_object`
with its member loop (lines 232-268), merged into one fuel-indexed
function (one fuel unit per call or loop iteration) so that the recursion
is structural on the fuel; `none` means the fuel ran out.  Named wrappers
for the individual Rust functions follow. -/
def parseF : Nat → PMode → Ctx → Option (Except PErr (Value × Ctx))
  | 0, _, _ => none
  | n + 1, mode, st =>
    match mode with
    -- parse_value: skip whitespace, dispatch on the next character.
    | .value =>
      match parseWhitespace st with
      | .error e => some (.error e)
      | .ok st1 =>
        match st1.peek with
        | .error e => some (.error e)
        | .ok c =>
          if c = 123 then parseF n .object st1
          else if c = 34 then some (parseString st1)
          else if c = 91 then parseF n .array st1
          else if c = 45 ∨ (48 ≤ c ∧ c ≤ 57) then some (parseNumber st1)
          else some (parseIntrisic st1)
    -- parse_array: consume `[`; an immediate `]` gives the empty array,
    -- otherwise run the element loop.
    | .array =>
      match parseChar 91 st with
      | .error e => some (.error e)
      | .ok st1 =>
        match st1.peek with
        | .error e => some (.error e)
        | .ok c =>
          if c = 93 then
            match st1.consume with
            | .error e => some (.error e)
            | .ok st2 => some (.ok (Value.Array [], st2))
          else parseF n (.arrayLoop []) st1
    -- element loop of parse_array: whitespace, value, whitespace, then
    -- `]` terminates, `,` continues, anything else errors.
    | .arrayLoop vals =>
      match parseWhitespace st with
      | .error e => some (.error e)
      | .ok st1 =>
        match parseF n .value st1 with
        | none => none
        | some (.error e) => some (.error e)
        | some (.ok (v, st2)) =>
          match parseWhitespace st2 with
          | .error e => some (.error e)
          | .ok st3 =>
            match st3.next with
            | .error e => some (.error e)
            | .ok (c, st4) =>
              if c = 93 then some (.ok (Value.Array (vals ++ [v]), st4))
              else if c = 44 then parseF n (.arrayLoop (vals ++ [v])) st4
              else some (.error (.err (st4.error "expected ']' or ','")))
    -- parse_object: consume `{`, skip whitespace; `"` starts the member
    -- loop, `}` gives the empty object, anything else errors.  The
    -- labelled outer loop of the Rust code never runs a second iteration
    -- (every arm returns, breaks, or stays inside the inner loop), so it
    -- is a single dispatch.
    | .object =>
      match parseChar 123 st with
      | .error e => some (.error e)
      | .ok st1 =>
        match parseWhitespace st1 with
        | .error e => some (.error e)
        | .ok st2 =>
          match st2.peek with
          | .error e => some (.error e)
          | .ok c =>
            if c = 34 then parseF n (.objLoop []) st2
            else if c = 125 then
              match st2.consume with
              | .error e => some (.error e)
              | .ok st3 => some (.ok (Value.Object [], st3))
            else some (.error (.err (st2.error "expected '\"' or '\x7d'")))
    -- member loop of parse_object: key string (the non-String arm is
    -- unreachable!()), whitespace, `:`, value, insert, whitespace, then
    -- `}` terminates and `,` plus whitespace continues.
    | .objLoop obj =>
      match parseString st with
      | .error e => some (.error e)
      | .ok (kv, st1) =>
        match kv with
        | Value.String key =>
          match parseWhitespace st1 with
          | .error e => some (.error e)
          | .ok st2 =>
            match parseChar 58 st2 with
            | .error e => some (.error e)
            | .ok st3 =>
              match parseF n .value st3 with
              | none => none
              | some (.error e) => some (.error e)
              | some (.ok (val, st4)) =>
                match parseWhitespace st4 with
                | .error e => some (.error e)
                | .ok st5 =>
                  match st5.next with
                  | .error e => some (.error e)
                  | .ok (c, st6) =>
                    if c = 125 then
                      some (.ok (Value.Object (btInsert key val obj), st6))
                    else if c = 44 then
                      match parseWhitespace st6 with
                      | .error e => some (.error e)
                      | .ok st7 => parseF n (.objLoop (btInsert key val obj)) st7
                    else some (.error (.err (st6.error "expected '\x7d' or ','")))
        | _ => some (.error .unreachablePanic)

/-- `parse_value` (lines 270-279). -/
def parseValueF (n : Nat) (st : Ctx) : Option (Except PErr (Value × Ctx)) :=
  parseF n .value st

/-- Fuel that theorem `parseValueF_total` proves sufficient for any
input of this length. -/
def fuelBound (input : List Nat) : Nat :=
  3 * input.length + 10

/-- `parse` (lines 281-284): run `parse_value` on a fresh context at 1:1.
The `none` branch is unreachable (see C9) and is mapped to a distinguished
error. -/
def parse (input : List Nat) : Except PErr Value :=
  match parseValueF (fuelBound input) ⟨input, 1, 1⟩ with
  | some (.ok (v, _)) => .ok v
  | some (.error e) => .error e
  | none => .error (.err "out of fuel")

/-- `parse_array` (lines 209-230). -/
def parseArrayF (n : Nat) (st : Ctx) : Option (Except PErr (Value × Ctx)) :=
  parseF n .array st

/-- `parse_object` (lines 232-268). -/
def parseObjectF (n : Nat) (st : Ctx) : Option (Except PErr (Value × Ctx)) :=
  parseF n .object st

/-- Fuel monotonicity: a result reached with some amount of fuel is also
reached with any larger amount. -/
theorem parseF_mono : ∀ {n m : Nat}, n ≤ m → ∀ {mode st r},
    parseF n mode st = some r → parseF m mode st = some r := by
  intro n
  induction n with
  | zero =>
    intro m h mode st r hr
    simp [parseF] at hr
  | succ n ih =>
    intro m h mode st r hr
    obtain ⟨m', rfl⟩ : ∃ m', m = m' + 1 := ⟨m - 1, by omega⟩
    have hnm : n ≤ m' := by omega
    cases mode with
    | value =>
      simp only [parseF, parseWhitespace] at hr ⊢
      cases hp : (wsLoop st.rem st.line st.col).peek with
      | error e => simp [hp] at hr ⊢; exact hr
      | ok c =>
        simp only [hp] at hr ⊢
        split_ifs at hr ⊢ <;> first
          | exact hr
          | exact ih hnm hr
    | array =>
      simp only [parseF] at hr ⊢
      cases hc : parseChar 91 st with
      | error e => simp [hc] at hr ⊢; exact hr
      | ok st1 =>
        simp only [hc] at hr ⊢
        cases hp : st1.peek with
        | error e => simp [hp] at hr ⊢; exact hr
        | ok c =>
          simp only [hp] at hr ⊢
          split_ifs at hr ⊢ with h93
          · exact hr
          · exact ih hnm hr
    | arrayLoop vals =>
      simp only [parseF, parseWhitespace] at hr ⊢
      cases hv : parseF n .value (wsLoop st.rem st.line st.col) with
      | none => simp [hv] at hr
      | some res =>
        have hv' := ih hnm hv
        simp only [hv']
        simp only [hv] at hr
        cases res with
        | error e => exact hr
        | ok p =>
          obtain ⟨v, st2⟩ := p
          simp only [parseWhitespace] at hr ⊢
          cases hnx : (wsLoop st2.rem st2.line st2.col).next with
          | error e => simp [hnx] at hr ⊢; exact hr
          | ok p2 =>
            obtain ⟨c, st4⟩ := p2
            simp only [hnx] at hr ⊢
            split_ifs at hr ⊢ <;> first
              | exact hr
              | exact ih hnm hr
    | object =>
      simp only [parseF, parseWhitespace] at hr ⊢
      cases hc : parseChar 123 st with
      | error e => simp [hc] at hr ⊢; exact hr
      | ok st1 =>
        simp only [hc] at hr ⊢
        cases hp : (wsLoop st1.rem st1.line st1.col).peek with
        | error e => simp [hp] at hr ⊢; exact hr
        | ok c =>
          simp only [hp] at hr ⊢
          split_ifs at hr ⊢ <;> first
            | exact hr
            | exact ih hnm hr
    | objLoop obj =>
      simp only [parseF] at hr ⊢
      cases hs : parseString st with
      | error e => simp [hs] at hr ⊢; exact hr
      | ok p =>
        obtain ⟨kv, st1⟩ := p
        simp only [hs] at hr ⊢
        cases kv <;> try exact hr
        rename_i key
        simp only [parseWhitespace] at hr ⊢
        cases hc : parseChar 58 (wsLoop st1.rem st1.line st1.col) with
        | error e => simp [hc] at hr ⊢; exact hr
        | ok st3 =>
          simp only [hc] at hr ⊢
          cases hv : parseF n .value st3 with
          | none => simp [hv] at hr
          | some res =>
            have hv' := ih hnm hv
            simp only [hv']
            simp only [hv] at hr
            cases res with
            | error e => exact hr
            | ok p =>
              obtain ⟨val, st4⟩ := p
              simp only [parseWhitespace] at hr ⊢
              cases hnx : (wsLoop st4.rem st4.line st4.col).next with
              | error e => simp [hnx] at hr ⊢; exact hr
              | ok p2 =>
                obtain ⟨c, st6⟩ := p2
                simp only [hnx] at hr ⊢
                split_ifs at hr ⊢ <;> first
                  | exact hr
                  | exact ih hnm hr

/-- Evaluation helper: a run that succeeds on small fuel determines
`parse`, since `parse` runs with at least that much fuel. -/
theorem parse_of_ok {input : List Nat} {n : Nat} {v : Value} {st' : Ctx}
    (h : parseF n .value ⟨input, 1, 1⟩ = some (.ok (v, st')))
    (hn : n ≤ fuelBound input) : parse input = .ok v := by
  unfold parse parseValueF
  rw [parseF_mono hn h]

/-- Evaluation helper for runs ending in an error. -/
theorem parse_of_err {input : List Nat} {n : Nat} {e : PErr}
    (h : parseF n .value ⟨input, 1, 1⟩ = some (.error e))
    (hn : n ≤ fuelBound input) : parse input = .error e := by
  unfold parse parseValueF
  rw [parseF_mono hn h]

/-- Normalization never leaves a nonnegative fraction above 1: the loop
divides while the value exceeds 1, so it stops at or below 1. -/
theorem fracNorm_le_one : ∀ q : ℚ, 0 ≤ q → fracNorm q ≤ 1 := by
  intro q
  induction q using fracNorm.induct with
  | case1 q h1 ih =>
    intro h0
    rw [fracNorm, if_pos h1]
    exact ih (by positivity)
  | case2 q h1 =>
    intro h0
    rw [fracNorm, if_neg h1]
    linarith [not_lt.mp h1]

/-- A run of whitespace bytes before `rest` is consumed by `wsLoop`,
leaving the loop to continue on `rest` from some position. -/
theorem wsLoop_append_ws : ∀ (ws : List Nat) (l c : Nat) (rest : List Nat),
    (∀ b ∈ ws, b = 32 ∨ b = 10 ∨ b = 13 ∨ b = 9) →
    ∃ l' c', wsLoop (ws ++ rest) l c = wsLoop rest l' c' := by
  intro ws
  induction ws with
  | nil => intro l c rest _; exact ⟨l, c, rfl⟩
  | cons b ws' ih =>
    intro l c rest hall
    have hb := hall b (List.mem_cons_self b ws')
    have hws' : ∀ x ∈ ws', x = 32 ∨ x = 10 ∨ x = 13 ∨ x = 9 :=
      fun x hx => hall x (List.mem_cons_of_mem b hx)
    rcases hb with rfl | rfl | rfl | rfl <;>
      simpa [wsLoop, adv] using ih _ _ rest hws'

/-- Claim C1.  The claim states `parse("-12.5e2")` is `Ok(-1250.0)` and
`parse("0")` is `Ok(0.0)`.  In the code, the digit loop of `parse_digits`
and the fraction/exponent lookaheads of `parse_number` call `peek` through
the `?` operator, so a number that extends to the end of the input makes
the parser return the end-of-input error instead: both inputs yield `Err`.
(`"0"` is bytes [48]; `"-12.5e2"` is bytes [45,49,50,46,53,101,50].) -/
theorem c1_number_examples_fail_at_eof :
    parse [48] = .error (.err "unexpected EOF at 1:2") ∧
    parse [45,49,50,46,53,101,50] = .error (.err "unexpected EOF at 1:8") := by
  constructor
  · with_unfolding_all rfl
  · with_unfolding_all rfl

/-- Claim C2.  The claim states a string literal parses to exactly its
Unicode scalar values, a two-byte UTF-8 character becoming one character.
The code reads single bytes and casts each one to `char`, so the two-byte
UTF-8 encoding [0xC3, 0xA9] of U+00E9 becomes the two characters U+00C3
and U+00A9 rather than the one-character string [0xE9]: input `"é"`
(bytes [34,195,169,34]) parses to a two-character string. -/
theorem c2_multibyte_scalar_is_split :
    parse [34,195,169,34] = .ok (Value.String [195,169]) ∧
    ([195,169] : List Nat) ≠ [233] := by
  constructor
  · with_unfolding_all rfl
  · decide

/-- Claim C3, counterexample.  The claim states that `'['`, whitespace,
`']'` parses to the empty array; on input `"[ ]"` (bytes [91,32,93]) the
code instead reaches the literal parser on `']'` and errors, because the
empty-array check in `parse_array` looks at the character directly after
`'['` without skipping whitespace. -/
theorem c3_ws_only_array_errors :
    parse [91,32,93] = .error (.err "expected 'true', 'false', or 'null' at 1:3") ∧
    parse [91,32,93] ≠ .ok (Value.Array []) := by
  have h : parse [91,32,93] =
      .error (.err "expected 'true', 'false', or 'null' at 1:3") := by
    with_unfolding_all rfl
  exact ⟨h, by rw [h]; intro hc; cases hc⟩

/-- Claim C3, amended.  Whitespace is permitted around the elements of a
nonempty array, but the empty-array check does not skip whitespace: for
every input consisting of `'['`, one or more whitespace bytes, and `']'`,
`parse` returns an `Err` (coming from the literal parser that receives the
`']'`). -/
theorem c3_array_ws_before_bracket_errs :
    ∀ ws : List Nat, ws ≠ [] →
    (∀ b ∈ ws, b = 32 ∨ b = 10 ∨ b = 13 ∨ b = 9) →
    ∃ e, parse (91 :: (ws ++ [93])) = .error (.err e) := by
  intro ws hne hall
  obtain ⟨b0, ws', rfl⟩ := List.exists_cons_of_ne_nil hne
  obtain ⟨l', c', hws⟩ := wsLoop_append_ws (b0 :: ws') 1 2 [93] hall
  have h93 : wsLoop [93] l' c' = ⟨[93], l', c'⟩ := by norm_num [wsLoop]
  rw [h93] at hws
  simp only [List.cons_append] at hws
  have hb0 := hall b0 (List.mem_cons_self b0 ws')
  have hb93 : ¬(b0 = 93) := by rcases hb0 with rfl | rfl | rfl | rfl <;> decide
  have hb123 : ¬(b0 = 123) := by rcases hb0 with rfl | rfl | rfl | rfl <;> decide
  have hhead : wsLoop (91 :: (b0 :: (ws' ++ [93]))) 1 1 =
      ⟨91 :: (b0 :: (ws' ++ [93])), 1, 1⟩ := by
    norm_num [wsLoop]
  refine ⟨fmtErrLC "expected 'true', 'false', or 'null'" l' c', ?_⟩
  apply parse_of_err (n := 4)
  · have h4 : (4 : Nat) = 0 + 4 := rfl
    rw [h4]
    simp only [parseF, parseWhitespace]
    norm_num [hhead, hws, h93, adv, Ctx.peek, parseChar, Ctx.next,
      Ctx.consume, hb93, hb123, parseIntrisic, Ctx.error]
  · simp only [fuelBound]
    omega

/-- Claim C4.  The claim states a leading `-` negates the final value,
fraction and exponent included.  The code computes `num = -digits` and
then adds the fraction to the already negated integer part, so for
`"-1.5 "` (bytes [45,49,46,53,32]) it produces -1 + 0.5 = -0.5, while
`"1.5 "` produces 1.5; -0.5 is not the negation of 1.5.  (All values here
are exact in IEEE double arithmetic.) -/
theorem c4_sign_not_applied_to_fraction :
    parse [45,49,46,53,32] = .ok (Value.Number (-(1/2))) ∧
    parse [49,46,53,32] = .ok (Value.Number (3/2)) ∧
    (-(1/2) : ℚ) ≠ -(3/2) := by
  refine ⟨?_, ?_, by norm_num⟩
  · with_unfolding_all rfl
  · with_unfolding_all rfl

/-- Claim C5, counterexample.  The claim states the fraction is divided by
10 until it is strictly less than 1, so the added value is always < 1.
The loop condition is `fraction > 1`, which stops at exactly 1: for
`"0.1 "` (bytes [48,46,49,32]) the accumulated fraction digits give 1,
the loop does not run, and 1 is added to the integer part 0, producing
the number 1 - the fractional contribution equals 1, not < 1. -/
theorem c5_fraction_contribution_can_be_one :
    fracNorm (digitsVal [49]) = 1 ∧
    parse [48,46,49,32] = .ok (Value.Number 1) := by
  constructor
  · with_unfolding_all rfl
  · with_unfolding_all rfl

/-- Claim C5, amended.  The fraction is divided by 10 while it is greater
than 1, hence the fractional contribution added to the integer part is
always at most 1 (and can equal exactly 1). -/
theorem c5_fraction_contribution_le_one :
    ∀ q : ℚ, 0 ≤ q → fracNorm q ≤ 1 :=
  fracNorm_le_one

/-- Claim C5, witness for the amended theorem at the fraction value 5
(the digits of `".5"`). -/
theorem c5_fraction_contribution_le_one_witness :
    (0 : ℚ) ≤ 5 ∧ fracNorm 5 ≤ 1 :=
  ⟨by norm_num, c5_fraction_contribution_le_one 5 (by norm_num)⟩

/-- Claim C7.  Parsing `{"a":1,"a":2}` (bytes
[123,34,97,34,58,49,44,34,97,34,58,50,125]) produces an object with the
single key `"a"` bound to the number 2: the second insert into the map
overwrites the first, so the later duplicate wins. -/
theorem c7_duplicate_key_last_write_wins :
    parse [123,34,97,34,58,49,44,34,97,34,58,50,125] =
      .ok (Value.Object [([97], Value.Number 2)]) := by
  have hnum1 : parseNumber ⟨[49,44,34,97,34,58,50,125],1,6⟩ =
      .ok (Value.Number 1, ⟨[44,34,97,34,58,50,125],1,7⟩) := by
    with_unfolding_all rfl
  have hnum2 : parseNumber ⟨[50,125],1,12⟩ =
      .ok (Value.Number 2, ⟨[125],1,13⟩) := by
    with_unfolding_all rfl
  have hkey1 : parseString ⟨[34,97,34,58,49,44,34,97,34,58,50,125],1,2⟩ =
      .ok (Value.String [97], ⟨[58,49,44,34,97,34,58,50,125],1,5⟩) := by
    with_unfolding_all rfl
  have hkey2 : parseString ⟨[34,97,34,58,50,125],1,8⟩ =
      .ok (Value.String [97], ⟨[58,50,125],1,11⟩) := by
    with_unfolding_all rfl
  have htop : parseF 6 .value ⟨[123,34,97,34,58,49,44,34,97,34,58,50,125],1,1⟩ =
      some (.ok (Value.Object [([97], Value.Number 2)], ⟨[],1,14⟩)) := by
    have h6 : (6 : Nat) = 0 + 6 := rfl
    rw [h6]
    simp only [parseF]
    norm_num [hkey1, hkey2, hnum1, hnum2, parseWhitespace, wsLoop, adv,
      Ctx.peek, parseChar, Ctx.next, Ctx.consume, btInsert, ltKey]
  exact parse_of_ok htop (by norm_num [fuelBound])

/-- Claim C8.  Parsing the input `"{\n  \"a\": }"` (bytes
[123,10,32,32,34,97,34,58,32,125]) fails with an error positioned at line
2, column 8 - the position of the offending `'}'` that follows the colon
and whitespace (line 2 holds two spaces, `"a"`, `':'`, a space, and `'}'`
at column 8), not at line 1. -/
theorem c8_error_position_line_two :
    parse [123,10,32,32,34,97,34,58,32,125] =
      .error (.err "expected 'true', 'false', or 'null' at 2:8") := by
  with_unfolding_all rfl


theorem stringLoop_rem_le : ∀ (r : List Nat) (l c : Nat) (acc : List Nat)
    (v : Value) (st' : Ctx), stringLoop r l c acc = .ok (v, st') →
    st'.rem.length ≤ r.length := by
  intro r l c acc
  induction r, l, c, acc using stringLoop.induct
  next l c x =>
    intro v st' h; rw [stringLoop.eq_def] at h; simp [adv] at h
  next rest l c acc =>
    intro v st' h; rw [stringLoop.eq_def] at h; simp [adv] at h
    obtain ⟨h1, h2⟩ := h
    subst h2
    simp
  next l c acc hx =>
    intro v st' h; rw [stringLoop.eq_def] at h; simp [adv] at h
  next l c acc tail pp1 hx pp2 ih =>
    intro v st' h; rw [stringLoop.eq_def] at h; simp [adv] at h
    exact le_trans (ih _ _ h) (by simp only [List.length_cons]; omega)
  next l c acc tail pp1 hx1 hx2 pp2 ih =>
    intro v st' h; rw [stringLoop.eq_def] at h; simp [adv] at h
    exact le_trans (ih _ _ h) (by simp only [List.length_cons]; omega)
  next l c acc tail pp1 hx1 hx2 hx3 pp2 ih =>
    intro v st' h; rw [stringLoop.eq_def] at h; simp [adv] at h
    exact le_trans (ih _ _ h) (by simp only [List.length_cons]; omega)
  next l c acc tail pp1 hx1 hx2 hx3 hx4 pp2 ih =>
    intro v st' h; rw [stringLoop.eq_def] at h; simp [adv] at h
    exact le_trans (ih _ _ h) (by simp only [List.length_cons]; omega)
  next l c acc tail pp1 hx1 hx2 hx3 hx4 hx5 pp2 ih =>
    intro v st' h; rw [stringLoop.eq_def] at h; simp [adv] at h
    exact le_trans (ih _ _ h) (by simp only [List.length_cons]; omega)
  next l c acc tail pp1 hx1 hx2 hx3 hx4 hx5 hx6 pp2 ih =>
    intro v st' h; rw [stringLoop.eq_def] at h; simp [adv] at h
    exact le_trans (ih _ _ h) (by simp only [List.length_cons]; omega)
  next l c acc tail pp1 hx1 hx2 hx3 hx4 hx5 hx6 hx7 pp2 ih =>
    intro v st' h; rw [stringLoop.eq_def] at h; simp [adv] at h
    exact le_trans (ih _ _ h) (by simp only [List.length_cons]; omega)
  next l c acc tail pp1 hx1 hx2 hx3 hx4 hx5 hx6 hx7 hx8 pp2 ih =>
    intro v st' h; rw [stringLoop.eq_def] at h; simp [adv] at h
    exact le_trans (ih _ _ h) (by simp only [List.length_cons]; omega)
  next l c acc tail e2 pp1 hx1 hx2 hx3 hx4 hx5 hx6 hx7 hx8 hx9 pp2 hq =>
    intro v st' h; rw [stringLoop.eq_def] at h
    have hq' : hexQuad 4 0 tail (adv 117 (adv 92 l c).1 (adv 92 l c).2).1
        (adv 117 (adv 92 l c).1 (adv 92 l c).2).2 = Except.error e2 := hq
    simp [adv] at hq' h
    split at h
    · simp at h
    · rename_i n' r6' l6' c6' heq
      rw [hq'] at heq
      simp at heq
  next l c acc tail n r6 l6 c6 hs pp1 hx1 hx2 hx3 hx4 hx5 hx6 hx7 hx8 hx9 pp2 hq =>
    intro v st' h; rw [stringLoop.eq_def] at h
    have hq' : hexQuad 4 0 tail (adv 117 (adv 92 l c).1 (adv 92 l c).2).1
        (adv 117 (adv 92 l c).1 (adv 92 l c).2).2 = Except.ok (n, r6, l6, c6) := hq
    simp [adv] at hq' h
    split at h
    · simp at h
    · rename_i n' r6' l6' c6' heq
      rw [hq'] at heq
      simp at heq
      obtain ⟨rfl, rfl, rfl, rfl⟩ := heq
      simp [hs] at h
  next l c acc tail n r6 l6 c6 hs pp1 hx1 hx2 hx3 hx4 hx5 hx6 hx7 hx8 hx9 pp2 hq ih =>
    intro v st' h; rw [stringLoop.eq_def] at h
    have hq' : hexQuad 4 0 tail (adv 117 (adv 92 l c).1 (adv 92 l c).2).1
        (adv 117 (adv 92 l c).1 (adv 92 l c).2).2 = Except.ok (n, r6, l6, c6) := hq
    simp [adv] at hq' h
    split at h
    · simp at h
    · rename_i n' r6' l6' c6' heq
      rw [hq'] at heq
      simp at heq
      obtain ⟨rfl, rfl, rfl, rfl⟩ := heq
      simp [hs] at h
      have h6l := hexQuad_rem_le _ _ _ _ _ _ _ _ _ hq'
      have h7l := ih _ _ h
      simp only [List.length_cons]
      omega
  next l c acc b tail hx1 hx2 hx3 hx4 hx5 hx6 hx7 hx8 hx9 hx10 =>
    intro v st' h; rw [stringLoop.eq_def] at h
    simp [adv, hx1, hx2, hx3, hx4, hx5, hx6, hx7, hx8, hx9] at h
  next b rest l c acc pp1 hx1 hx2 ih =>
    intro v st' h; rw [stringLoop.eq_def] at h; simp [adv, hx1, hx2] at h
    exact le_trans (ih _ _ h) (by simp only [List.length_cons]; omega)

theorem wsLoop_rem_le : ∀ (r : List Nat) (l c : Nat),
    (wsLoop r l c).rem.length ≤ r.length := by
  intro r
  induction r with
  | nil => intro l c; simp [wsLoop]
  | cons b rest ih =>
    intro l c
    rw [wsLoop]
    split
    · exact le_trans (ih _ _) (by simp)
    · simp

theorem consume_rem : ∀ {st st' : Ctx}, Ctx.consume st = .ok st' →
    st'.rem.length + 1 = st.rem.length := by
  intro st st' h
  unfold Ctx.consume at h
  split at h
  · cases h
  · rename_i b rest hr
    cases h
    split <;> simp [hr]

theorem next_rem : ∀ {st : Ctx} {c : Nat} {st' : Ctx},
    Ctx.next st = .ok (c, st') → st'.rem.length + 1 = st.rem.length := by
  intro st c st' h
  unfold Ctx.next at h
  split at h
  · cases h
  · split at h
    · cases h
    · rename_i hc
      cases h
      exact consume_rem hc

theorem parseChar_rem : ∀ {x : Nat} {st st' : Ctx}, parseChar x st = .ok st' →
    st'.rem.length + 1 = st.rem.length := by
  intro x st st' h
  unfold parseChar at h
  split at h
  · cases h
  · rename_i p b st2 hn
    split at h
    · cases h
      exact next_rem hn
    · cases h

theorem parseWord_rem_le : ∀ (w : List Nat) {st st' : Ctx},
    parseWord w st = .ok st' → st'.rem.length ≤ st.rem.length := by
  intro w
  induction w with
  | nil => intro st st' h; cases h; exact le_refl _
  | cons b rest ih =>
    intro st st' h
    unfold parseWord at h
    split at h
    · cases h
    · rename_i st2 hc
      have h1 := parseChar_rem hc
      have h2 := ih h
      omega

theorem parseString_rem_le : ∀ {st : Ctx} {v : Value} {st' : Ctx},
    parseString st = .ok (v, st') → st'.rem.length ≤ st.rem.length := by
  intro st v st' h
  unfold parseString at h
  split at h
  · cases h
  · rename_i st1 hc
    have h1 := parseChar_rem hc
    have h2 := stringLoop_rem_le _ _ _ _ _ _ h
    omega

theorem digitsGo_rem_le : ∀ (r : List Nat) (l c : Nat) (acc : List Nat)
    (s : List Nat) (st' : Ctx), digitsGo r l c acc = .ok (s, st') →
    st'.rem.length ≤ r.length := by
  intro r
  induction r with
  | nil => intro l c acc s st' h; cases h
  | cons b rest ih =>
    intro l c acc s st' h
    rw [digitsGo] at h
    split at h
    · have := ih _ _ _ _ _ h
      simp only [List.length_cons]
      omega
    · cases h
      simp

theorem parseDigits_rem_le : ∀ {st : Ctx} {q : ℚ} {st' : Ctx},
    parseDigits st = .ok (q, st') → st'.rem.length ≤ st.rem.length := by
  intro st q st' h
  unfold parseDigits at h
  split at h
  · cases h
  · rename_i p s st2 hd
    cases h
    exact digitsGo_rem_le _ _ _ _ _ _ hd

theorem parseNumber_rem_le : ∀ {st : Ctx} {v : Value} {st' : Ctx},
    parseNumber st = .ok (v, st') → st'.rem.length ≤ st.rem.length := by
  intro st v st' h
  unfold parseNumber at h
  split at h
  · cases h
  · rename_i c hp
    split at h
    · cases h
    · rename_i p num st3 heq1
      have hb1 : st3.rem.length ≤ st.rem.length := by
        split_ifs at heq1
        · split at heq1
          · cases heq1
          · rename_i st1 hcon
            split at heq1
            · cases heq1
            · rename_i p2 d st2 hdg
              cases heq1
              have h1 := parseDigits_rem_le hdg
              have h2 := consume_rem hcon
              omega
        · exact parseDigits_rem_le heq1
      split at h
      · cases h
      · rename_i c2 hp2
        split at h
        · cases h
        · rename_i p2 num2 st6 heq2
          have hb2 : st6.rem.length ≤ st3.rem.length := by
            split_ifs at heq2
            · split at heq2
              · cases heq2
              · rename_i st4 hcon
                split at heq2
                · cases heq2
                · rename_i p3 d st5 hdg
                  cases heq2
                  have h1 := parseDigits_rem_le hdg
                  have h2 := consume_rem hcon
                  omega
            · cases heq2
              exact le_refl _
          split at h
          · cases h
          · rename_i c3 hp3
            split_ifs at h
            · split at h
              · cases h
              · rename_i st7 hcon
                have hb3 := consume_rem hcon
                split at h
                · cases h
                · rename_i c4 hp4
                  split at h
                  · cases h
                  · rename_i p3 sign st9 heq3
                    have hb4 : st9.rem.length ≤ st7.rem.length := by
                      split_ifs at heq3
                      · split at heq3
                        · cases heq3
                        · rename_i st8 hcon2
                          cases heq3
                          have := consume_rem hcon2
                          omega
                      · split at heq3
                        · cases heq3
                        · rename_i st8 hcon2
                          cases heq3
                          have := consume_rem hcon2
                          omega
                      · cases heq3
                        exact le_refl _
                    split at h
                    · cases h
                    · rename_i p4 d st10 hdg
                      cases h
                      have := parseDigits_rem_le hdg
                      omega
            · cases h
              omega

theorem parseIntrisic_rem_le : ∀ {st : Ctx} {v : Value} {st' : Ctx},
    parseIntrisic st = .ok (v, st') → st'.rem.length ≤ st.rem.length := by
  intro st v st' h
  unfold parseIntrisic at h
  split at h
  · cases h
  · split_ifs at h <;>
      (split at h
       · cases h
       · rename_i st2 hw
         cases h
         exact parseWord_rem_le _ hw)

/-- A successful run of any of the mutually recursive routines never grows
the remaining input. -/
theorem parseF_rem_le : ∀ (n : Nat) (mode : PMode) (st : Ctx) (v : Value)
    (st' : Ctx), parseF n mode st = some (.ok (v, st')) →
    st'.rem.length ≤ st.rem.length := by
  intro n
  induction n with
  | zero => intro mode st v st' h; simp [parseF] at h
  | succ n ih =>
    intro mode st v st' h
    cases mode with
    | value =>
      simp only [parseF, parseWhitespace] at h
      have hws := wsLoop_rem_le st.rem st.line st.col
      cases hp : (wsLoop st.rem st.line st.col).peek with
      | error e => simp [hp] at h
      | ok c =>
        simp only [hp] at h
        split_ifs at h
        · exact le_trans (ih _ _ _ _ h) hws
        · simp only [Option.some.injEq] at h
          exact le_trans (parseString_rem_le h) hws
        · exact le_trans (ih _ _ _ _ h) hws
        · simp only [Option.some.injEq] at h
          exact le_trans (parseNumber_rem_le h) hws
        · simp only [Option.some.injEq] at h
          exact le_trans (parseIntrisic_rem_le h) hws
    | array =>
      simp only [parseF] at h
      cases hc : parseChar 91 st with
      | error e => simp [hc] at h
      | ok st1 =>
        simp only [hc] at h
        have h1 := parseChar_rem hc
        cases hp : st1.peek with
        | error e => simp [hp] at h
        | ok c =>
          simp only [hp] at h
          split_ifs at h
          · cases hcon : st1.consume with
            | error e => simp [hcon] at h
            | ok st2 =>
              simp only [hcon, Option.some.injEq, Except.ok.injEq,
                Prod.mk.injEq] at h
              obtain ⟨h2, h3⟩ := h
              subst h3
              have := consume_rem hcon
              omega
          · have := ih _ _ _ _ h
            omega
    | arrayLoop vals =>
      simp only [parseF, parseWhitespace] at h
      have hws := wsLoop_rem_le st.rem st.line st.col
      cases hv : parseF n .value (wsLoop st.rem st.line st.col) with
      | none => simp [hv] at h
      | some res =>
        simp only [hv] at h
        cases res with
        | error e => simp at h
        | ok p =>
          obtain ⟨v2, st2⟩ := p
          have hv2 := ih _ _ _ _ hv
          simp only [parseWhitespace] at h
          have hws2 := wsLoop_rem_le st2.rem st2.line st2.col
          cases hnx : (wsLoop st2.rem st2.line st2.col).next with
          | error e => simp [hnx] at h
          | ok p2 =>
            obtain ⟨c, st4⟩ := p2
            have hnr := next_rem hnx
            simp only [hnx] at h
            split_ifs at h
            · simp only [Option.some.injEq, Except.ok.injEq, Prod.mk.injEq] at h
              obtain ⟨h2, h3⟩ := h
              subst h3
              omega
            · have := ih _ _ _ _ h
              omega
            · simp at h
    | object =>
      simp only [parseF, parseWhitespace] at h
      cases hc : parseChar 123 st with
      | error e => simp [hc] at h
      | ok st1 =>
        simp only [hc] at h
        have h1 := parseChar_rem hc
        have hws := wsLoop_rem_le st1.rem st1.line st1.col
        cases hp : (wsLoop st1.rem st1.line st1.col).peek with
        | error e => simp [hp] at h
        | ok c =>
          simp only [hp] at h
          split_ifs at h
          · have := ih _ _ _ _ h
            omega
          · cases hcon : (wsLoop st1.rem st1.line st1.col).consume with
            | error e => simp [hcon] at h
            | ok st3 =>
              simp only [hcon, Option.some.injEq, Except.ok.injEq,
                Prod.mk.injEq] at h
              obtain ⟨h2, h3⟩ := h
              subst h3
              have := consume_rem hcon
              omega
          · simp at h
    | objLoop obj =>
      simp only [parseF] at h
      cases hs : parseString st with
      | error e => simp [hs] at h
      | ok p =>
        obtain ⟨kv, st1⟩ := p
        have hsr := parseString_rem_le hs
        simp only [hs] at h
        cases kv
        case String key =>
          simp only [parseWhitespace] at h
          have hws := wsLoop_rem_le st1.rem st1.line st1.col
          cases hc : parseChar 58 (wsLoop st1.rem st1.line st1.col) with
          | error e => simp [hc] at h
          | ok st3 =>
            have hcr := parseChar_rem hc
            simp only [hc] at h
            cases hv : parseF n .value st3 with
            | none => simp [hv] at h
            | some res =>
              simp only [hv] at h
              cases res with
              | error e => simp at h
              | ok p2 =>
                obtain ⟨val, st4⟩ := p2
                have hvr := ih _ _ _ _ hv
                simp only [parseWhitespace] at h
                have hws2 := wsLoop_rem_le st4.rem st4.line st4.col
                cases hnx : (wsLoop st4.rem st4.line st4.col).next with
                | error e => simp [hnx] at h
                | ok p3 =>
                  obtain ⟨c, st6⟩ := p3
                  have hnr := next_rem hnx
                  simp only [hnx] at h
                  split_ifs at h
                  · simp only [Option.some.injEq, Except.ok.injEq,
                      Prod.mk.injEq] at h
                    obtain ⟨h2, h3⟩ := h
                    subst h3
                    omega
                  · have hws3 := wsLoop_rem_le st6.rem st6.line st6.col
                    have := ih _ _ _ _ h
                    omega
                  · simp at h
        all_goals simp at h

/-- Fuel needed by each routine beyond three units per remaining input
byte, used only to state the sufficiency theorem below. -/
def modeCost : PMode → Nat
  | .value => 2
  | .array => 1
  | .arrayLoop _ => 3
  | .object => 1
  | .objLoop _ => 3

/-- Fuel sufficiency: three fuel units per remaining byte plus a small
per-routine constant never run out, so the recursion always terminates
within the bound. -/
theorem parseF_isSome : ∀ (n : Nat) (mode : PMode) (st : Ctx),
    3 * st.rem.length + modeCost mode ≤ n → (parseF n mode st).isSome := by
  intro n
  induction n with
  | zero =>
    intro mode st hb
    cases mode <;> simp [modeCost] at hb
  | succ n ih =>
    intro mode st hb
    cases mode with
    | value =>
      simp only [parseF, parseWhitespace]
      have hws := wsLoop_rem_le st.rem st.line st.col
      cases hp : (wsLoop st.rem st.line st.col).peek with
      | error e => simp
      | ok c =>
        simp only [hp]
        simp only [modeCost] at hb
        split_ifs <;>
          first
            | simp
            | exact ih _ _ (by simp only [modeCost]; omega)
    | array =>
      simp only [parseF]
      simp only [modeCost] at hb
      cases hc : parseChar 91 st with
      | error e => simp
      | ok st1 =>
        simp only []
        have h1 := parseChar_rem hc
        cases hp : st1.peek with
        | error e => simp
        | ok c =>
          simp only [hp]
          split_ifs
          · cases hcon : st1.consume <;> simp
          · exact ih _ _ (by simp only [modeCost]; omega)
    | arrayLoop vals =>
      simp only [parseF, parseWhitespace]
      simp only [modeCost] at hb
      have hws := wsLoop_rem_le st.rem st.line st.col
      have hsome := ih PMode.value (wsLoop st.rem st.line st.col)
        (by simp only [modeCost]; omega)
      obtain ⟨res, hres⟩ := Option.isSome_iff_exists.mp hsome
      simp only [hres]
      cases res with
      | error e => simp
      | ok p =>
        obtain ⟨v2, st2⟩ := p
        have hv2 := parseF_rem_le _ _ _ _ _ hres
        simp only [parseWhitespace]
        have hws2 := wsLoop_rem_le st2.rem st2.line st2.col
        cases hnx : (wsLoop st2.rem st2.line st2.col).next with
        | error e => simp
        | ok p2 =>
          obtain ⟨c, st4⟩ := p2
          have hnr := next_rem hnx
          simp only []
          split_ifs
          · simp
          · exact ih _ _ (by simp only [modeCost]; omega)
          · simp
    | object =>
      simp only [parseF, parseWhitespace]
      simp only [modeCost] at hb
      cases hc : parseChar 123 st with
      | error e => simp
      | ok st1 =>
        simp only []
        have h1 := parseChar_rem hc
        have hws := wsLoop_rem_le st1.rem st1.line st1.col
        cases hp : (wsLoop st1.rem st1.line st1.col).peek with
        | error e => simp
        | ok c =>
          simp only [hp]
          split_ifs
          · exact ih _ _ (by simp only [modeCost]; omega)
          · cases hcon : (wsLoop st1.rem st1.line st1.col).consume <;> simp
          · simp
    | objLoop obj =>
      simp only [parseF]
      simp only [modeCost] at hb
      cases hs : parseString st with
      | error e => simp
      | ok p =>
        obtain ⟨kv, st1⟩ := p
        have hsr := parseString_rem_le hs
        simp only []
        cases kv
        case String key =>
          simp only [parseWhitespace]
          have hws := wsLoop_rem_le st1.rem st1.line st1.col
          cases hc : parseChar 58 (wsLoop st1.rem st1.line st1.col) with
          | error e => simp
          | ok st3 =>
            have hcr := parseChar_rem hc
            simp only []
            have hsome := ih PMode.value st3 (by simp only [modeCost]; omega)
            obtain ⟨res, hres⟩ := Option.isSome_iff_exists.mp hsome
            simp only [hres]
            cases res with
            | error e => simp
            | ok p2 =>
              obtain ⟨val, st4⟩ := p2
              have hvr := parseF_rem_le _ _ _ _ _ hres
              simp only [parseWhitespace]
              have hws2 := wsLoop_rem_le st4.rem st4.line st4.col
              cases hnx : (wsLoop st4.rem st4.line st4.col).next with
              | error e => simp
              | ok p3 =>
                obtain ⟨c, st6⟩ := p3
                have hnr := next_rem hnx
                simp only []
                split_ifs
                · simp
                · have hws3 := wsLoop_rem_le st6.rem st6.line st6.col
                  exact ih _ _ (by simp only [modeCost]; omega)
                · simp
        all_goals simp

/-- Totality of the exact-arithmetic model: with the fuel budget `parse`
uses (three units per input byte plus ten), the fuel-indexed recursion
always produces a result - `some` of either `Ok` of a value or `Err` of a
message - for every input.  This is a fact about the ℚ idealization only:
under binary64 arithmetic the fraction-normalization loop of
`parse_number` can run forever (see claim C9 below), because a ≥ 309-digit
fraction accumulates to `+∞`, which ℚ cannot represent. -/
theorem parseValueF_total :
    ∀ input : List Nat, ∃ r, parseValueF (fuelBound input) ⟨input, 1, 1⟩ = some r := by
  intro input
  have h := parseF_isSome (fuelBound input) .value ⟨input, 1, 1⟩
    (by simp only [modeCost, fuelBound]; omega)
  exact Option.isSome_iff_exists.mp h

theorem peek_err : ∀ {st : Ctx} {e : PErr}, Ctx.peek st = .error e →
    ∃ s, e = .err s := by
  intro st e h
  unfold Ctx.peek at h
  split at h
  · cases h; exact ⟨_, rfl⟩
  · cases h

theorem consume_err : ∀ {st : Ctx} {e : PErr}, Ctx.consume st = .error e →
    ∃ s, e = .err s := by
  intro st e h
  unfold Ctx.consume at h
  split at h
  · cases h; exact ⟨_, rfl⟩
  · cases h

theorem next_err : ∀ {st : Ctx} {e : PErr}, Ctx.next st = .error e →
    ∃ s, e = .err s := by
  intro st e h
  unfold Ctx.next at h
  split at h
  · rename_i hp
    cases h
    exact peek_err hp
  · split at h
    · rename_i hc
      cases h
      exact consume_err hc
    · cases h

theorem parseChar_err : ∀ {x : Nat} {st : Ctx} {e : PErr},
    parseChar x st = .error e → ∃ s, e = .err s := by
  intro x st e h
  unfold parseChar at h
  split at h
  · rename_i hn
    cases h
    exact next_err hn
  · split at h
    · cases h
    · cases h; exact ⟨_, rfl⟩

theorem parseWord_err : ∀ (w : List Nat) {st : Ctx} {e : PErr},
    parseWord w st = .error e → ∃ s, e = .err s := by
  intro w
  induction w with
  | nil => intro st e h; cases h
  | cons b rest ih =>
    intro st e h
    unfold parseWord at h
    split at h
    · rename_i hc
      cases h
      exact parseChar_err hc
    · exact ih h

theorem hexQuad_err : ∀ (i n : Nat) (r : List Nat) (l c : Nat) {e : PErr},
    hexQuad i n r l c = .error e → ∃ s, e = .err s := by
  intro i
  induction i with
  | zero => intro n r l c e h; cases h
  | succ i ih =>
    intro n r l c e h
    cases r with
    | nil => cases h; exact ⟨_, rfl⟩
    | cons d rest =>
      simp only [hexQuad] at h
      cases hv : hexVal d with
      | none => rw [hv] at h; cases h; exact ⟨_, rfl⟩
      | some v =>
        rw [hv] at h
        exact ih _ _ _ _ h

theorem digitsGo_err : ∀ (r : List Nat) (l c : Nat) (acc : List Nat) {e : PErr},
    digitsGo r l c acc = .error e → ∃ s, e = .err s := by
  intro r
  induction r with
  | nil => intro l c acc e h; cases h; exact ⟨_, rfl⟩
  | cons b rest ih =>
    intro l c acc e h
    rw [digitsGo] at h
    split at h
    · exact ih _ _ _ h
    · cases h

theorem parseDigits_err : ∀ {st : Ctx} {e : PErr},
    parseDigits st = .error e → ∃ s, e = .err s := by
  intro st e h
  unfold parseDigits at h
  split at h
  · rename_i hd
    cases h
    exact digitsGo_err _ _ _ _ hd
  · cases h

theorem stringLoop_err : ∀ (r : List Nat) (l c : Nat) (acc : List Nat)
    {e : PErr}, stringLoop r l c acc = .error e → ∃ s, e = .err s := by
  intro r l c acc
  induction r, l, c, acc using stringLoop.induct
  next l c x =>
    intro e h; rw [stringLoop.eq_def] at h; simp [adv] at h
    exact ⟨_, h.symm⟩
  next rest l c acc =>
    intro e h; rw [stringLoop.eq_def] at h; simp [adv] at h
  next l c acc hx =>
    intro e h; rw [stringLoop.eq_def] at h; simp [adv] at h
    exact ⟨_, h.symm⟩
  next l c acc tail pp1 hx pp2 ih =>
    intro e h; rw [stringLoop.eq_def] at h; simp [adv] at h
    exact ih h
  next l c acc tail pp1 hx1 hx2 pp2 ih =>
    intro e h; rw [stringLoop.eq_def] at h; simp [adv] at h
    exact ih h
  next l c acc tail pp1 hx1 hx2 hx3 pp2 ih =>
    intro e h; rw [stringLoop.eq_def] at h; simp [adv] at h
    exact ih h
  next l c acc tail pp1 hx1 hx2 hx3 hx4 pp2 ih =>
    intro e h; rw [stringLoop.eq_def] at h; simp [adv] at h
    exact ih h
  next l c acc tail pp1 hx1 hx2 hx3 hx4 hx5 pp2 ih =>
    intro e h; rw [stringLoop.eq_def] at h; simp [adv] at h
    exact ih h
  next l c acc tail pp1 hx1 hx2 hx3 hx4 hx5 hx6 pp2 ih =>
    intro e h; rw [stringLoop.eq_def] at h; simp [adv] at h
    exact ih h
  next l c acc tail pp1 hx1 hx2 hx3 hx4 hx5 hx6 hx7 pp2 ih =>
    intro e h; rw [stringLoop.eq_def] at h; simp [adv] at h
    exact ih h
  next l c acc tail pp1 hx1 hx2 hx3 hx4 hx5 hx6 hx7 hx8 pp2 ih =>
    intro e h; rw [stringLoop.eq_def] at h; simp [adv] at h
    exact ih h
  next l c acc tail e2 pp1 hx1 hx2 hx3 hx4 hx5 hx6 hx7 hx8 hx9 pp2 hq =>
    intro e h; rw [stringLoop.eq_def] at h
    have hq' : hexQuad 4 0 tail (adv 117 (adv 92 l c).1 (adv 92 l c).2).1
        (adv 117 (adv 92 l c).1 (adv 92 l c).2).2 = Except.error e2 := hq
    simp [adv] at hq' h
    split at h
    · rename_i e3 heq
      rw [hq'] at heq
      simp at heq
      cases h
      subst heq
      exact hexQuad_err _ _ _ _ _ hq'
    · rename_i n' r6' l6' c6' heq
      rw [hq'] at heq
      simp at heq
  next l c acc tail n r6 l6 c6 hs pp1 hx1 hx2 hx3 hx4 hx5 hx6 hx7 hx8 hx9 pp2 hq =>
    intro e h; rw [stringLoop.eq_def] at h
    have hq' : hexQuad 4 0 tail (adv 117 (adv 92 l c).1 (adv 92 l c).2).1
        (adv 117 (adv 92 l c).1 (adv 92 l c).2).2 = Except.ok (n, r6, l6, c6) := hq
    simp [adv] at hq' h
    split at h
    · rename_i e3 heq
      rw [hq'] at heq
      simp at heq
    · rename_i n' r6' l6' c6' heq
      rw [hq'] at heq
      simp at heq
      obtain ⟨rfl, rfl, rfl, rfl⟩ := heq
      simp [hs] at h
      exact ⟨_, h.symm⟩
  next l c acc tail n r6 l6 c6 hs pp1 hx1 hx2 hx3 hx4 hx5 hx6 hx7 hx8 hx9 pp2 hq ih =>
    intro e h; rw [stringLoop.eq_def] at h
    have hq' : hexQuad 4 0 tail (adv 117 (adv 92 l c).1 (adv 92 l c).2).1
        (adv 117 (adv 92 l c).1 (adv 92 l c).2).2 = Except.ok (n, r6, l6, c6) := hq
    simp [adv] at hq' h
    split at h
    · rename_i e3 heq
      rw [hq'] at heq
      simp at heq
    · rename_i n' r6' l6' c6' heq
      rw [hq'] at heq
      simp at heq
      obtain ⟨rfl, rfl, rfl, rfl⟩ := heq
      simp [hs] at h
      exact ih h
  next l c acc b tail hx1 hx2 hx3 hx4 hx5 hx6 hx7 hx8 hx9 hx10 =>
    intro e h; rw [stringLoop.eq_def] at h
    simp [adv, hx1, hx2, hx3, hx4, hx5, hx6, hx7, hx8, hx9] at h
    exact ⟨_, h.symm⟩
  next b rest l c acc pp1 hx1 hx2 ih =>
    intro e h; rw [stringLoop.eq_def] at h; simp [adv, hx1, hx2] at h
    exact ih h

theorem stringLoop_shape : ∀ (r : List Nat) (l c : Nat) (acc : List Nat)
    (v : Value) (st' : Ctx), stringLoop r l c acc = .ok (v, st') →
    ∃ s, v = Value.String s := by
  intro r l c acc
  induction r, l, c, acc using stringLoop.induct
  next l c x =>
    intro v st' h; rw [stringLoop.eq_def] at h; simp [adv] at h
  next rest l c acc =>
    intro v st' h; rw [stringLoop.eq_def] at h; simp [adv] at h
    exact ⟨acc, h.1.symm⟩
  next l c acc hx =>
    intro v st' h; rw [stringLoop.eq_def] at h; simp [adv] at h
  next l c acc tail pp1 hx pp2 ih =>
    intro v st' h; rw [stringLoop.eq_def] at h; simp [adv] at h
    exact ih _ _ h
  next l c acc tail pp1 hx1 hx2 pp2 ih =>
    intro v st' h; rw [stringLoop.eq_def] at h; simp [adv] at h
    exact ih _ _ h
  next l c acc tail pp1 hx1 hx2 hx3 pp2 ih =>
    intro v st' h; rw [stringLoop.eq_def] at h; simp [adv] at h
    exact ih _ _ h
  next l c acc tail pp1 hx1 hx2 hx3 hx4 pp2 ih =>
    intro v st' h; rw [stringLoop.eq_def] at h; simp [adv] at h
    exact ih _ _ h
  next l c acc tail pp1 hx1 hx2 hx3 hx4 hx5 pp2 ih =>
    intro v st' h; rw [stringLoop.eq_def] at h; simp [adv] at h
    exact ih _ _ h
  next l c acc tail pp1 hx1 hx2 hx3 hx4 hx5 hx6 pp2 ih =>
    intro v st' h; rw [stringLoop.eq_def] at h; simp [adv] at h
    exact ih _ _ h
  next l c acc tail pp1 hx1 hx2 hx3 hx4 hx5 hx6 hx7 pp2 ih =>
    intro v st' h; rw [stringLoop.eq_def] at h; simp [adv] at h
    exact ih _ _ h
  next l c acc tail pp1 hx1 hx2 hx3 hx4 hx5 hx6 hx7 hx8 pp2 ih =>
    intro v st' h; rw [stringLoop.eq_def] at h; simp [adv] at h
    exact ih _ _ h
  next l c acc tail e2 pp1 hx1 hx2 hx3 hx4 hx5 hx6 hx7 hx8 hx9 pp2 hq =>
    intro v st' h; rw [stringLoop.eq_def] at h
    have hq' : hexQuad 4 0 tail (adv 117 (adv 92 l c).1 (adv 92 l c).2).1
        (adv 117 (adv 92 l c).1 (adv 92 l c).2).2 = Except.error e2 := hq
    simp [adv] at hq' h
    split at h
    · simp at h
    · rename_i n' r6' l6' c6' heq
      rw [hq'] at heq
      simp at heq
  next l c acc tail n r6 l6 c6 hs pp1 hx1 hx2 hx3 hx4 hx5 hx6 hx7 hx8 hx9 pp2 hq =>
    intro v st' h; rw [stringLoop.eq_def] at h
    have hq' : hexQuad 4 0 tail (adv 117 (adv 92 l c).1 (adv 92 l c).2).1
        (adv 117 (adv 92 l c).1 (adv 92 l c).2).2 = Except.ok (n, r6, l6, c6) := hq
    simp [adv] at hq' h
    split at h
    · simp at h
    · rename_i n' r6' l6' c6' heq
      rw [hq'] at heq
      simp at heq
      obtain ⟨rfl, rfl, rfl, rfl⟩ := heq
      simp [hs] at h
  next l c acc tail n r6 l6 c6 hs pp1 hx1 hx2 hx3 hx4 hx5 hx6 hx7 hx8 hx9 pp2 hq ih =>
    intro v st' h; rw [stringLoop.eq_def] at h
    have hq' : hexQuad 4 0 tail (adv 117 (adv 92 l c).1 (adv 92 l c).2).1
        (adv 117 (adv 92 l c).1 (adv 92 l c).2).2 = Except.ok (n, r6, l6, c6) := hq
    simp [adv] at hq' h
    split at h
    · simp at h
    · rename_i n' r6' l6' c6' heq
      rw [hq'] at heq
      simp at heq
      obtain ⟨rfl, rfl, rfl, rfl⟩ := heq
      simp [hs] at h
      exact ih _ _ h
  next l c acc b tail hx1 hx2 hx3 hx4 hx5 hx6 hx7 hx8 hx9 hx10 =>
    intro v st' h; rw [stringLoop.eq_def] at h
    simp [adv, hx1, hx2, hx3, hx4, hx5, hx6, hx7, hx8, hx9] at h
  next b rest l c acc pp1 hx1 hx2 ih =>
    intro v st' h; rw [stringLoop.eq_def] at h; simp [adv, hx1, hx2] at h
    exact ih _ _ h

theorem parseString_err : ∀ {st : Ctx} {e : PErr},
    parseString st = .error e → ∃ s, e = .err s := by
  intro st e h
  unfold parseString at h
  split at h
  · rename_i hc
    cases h
    exact parseChar_err hc
  · exact stringLoop_err _ _ _ _ h

theorem parseString_shape : ∀ {st : Ctx} {v : Value} {st' : Ctx},
    parseString st = .ok (v, st') → ∃ s, v = Value.String s := by
  intro st v st' h
  unfold parseString at h
  split at h
  · cases h
  · exact stringLoop_shape _ _ _ _ _ _ h

theorem parseNumber_err : ∀ {st : Ctx} {e : PErr},
    parseNumber st = .error e → ∃ s, e = .err s := by
  intro st e h
  unfold parseNumber at h
  split at h
  · rename_i e1 hp
    cases h
    exact peek_err hp
  · rename_i c hp
    split at h
    · rename_i e1 heq1
      cases h
      split_ifs at heq1
      · split at heq1
        · rename_i hcon
          cases heq1
          exact consume_err hcon
        · split at heq1
          · rename_i hdg
            cases heq1
            exact parseDigits_err hdg
          · cases heq1
      · exact parseDigits_err heq1
      · cases heq1
        exact ⟨_, rfl⟩
    · rename_i p num st3 heq1
      split at h
      · rename_i e1 hp2
        cases h
        exact peek_err hp2
      · rename_i c2 hp2
        split at h
        · rename_i e1 heq2
          cases h
          split_ifs at heq2
          · split at heq2
            · rename_i hcon
              cases heq2
              exact consume_err hcon
            · split at heq2
              · rename_i hdg
                cases heq2
                exact parseDigits_err hdg
              · cases heq2
        · rename_i p2 num2 st6 heq2
          split at h
          · rename_i e1 hp3
            cases h
            exact peek_err hp3
          · rename_i c3 hp3
            split_ifs at h
            · split at h
              · rename_i hcon
                cases h
                exact consume_err hcon
              · split at h
                · rename_i hp4
                  cases h
                  exact peek_err hp4
                · rename_i c4 hp4
                  split at h
                  · rename_i e1 heq3
                    cases h
                    split_ifs at heq3
                    · split at heq3
                      · rename_i hcon2
                        cases heq3
                        exact consume_err hcon2
                      · cases heq3
                    · split at heq3
                      · rename_i hcon2
                        cases heq3
                        exact consume_err hcon2
                      · cases heq3
                  · rename_i p3 sign st9 heq3
                    split at h
                    · rename_i hdg
                      cases h
                      exact parseDigits_err hdg
                    · cases h

theorem parseIntrisic_err : ∀ {st : Ctx} {e : PErr},
    parseIntrisic st = .error e → ∃ s, e = .err s := by
  intro st e h
  unfold parseIntrisic at h
  split at h
  · rename_i hp
    cases h
    exact peek_err hp
  · split_ifs at h <;>
      first
        | (split at h
           · rename_i hw
             cases h
             exact parseWord_err _ hw
           · cases h)
        | (cases h; exact ⟨_, rfl⟩)

/-- The fuel-indexed parser never produces the `unreachable!()` panic:
every error it returns is an ordinary message, because `parse_string`
only ever returns `String` values (so the non-String arm of the key
match in `parse_object` is dead) and every other error site constructs a
message. -/
theorem parseF_no_panic : ∀ (n : Nat) (mode : PMode) (st : Ctx),
    parseF n mode st ≠ some (.error .unreachablePanic) := by
  intro n
  induction n with
  | zero => intro mode st h; simp [parseF] at h
  | succ n ih =>
    intro mode st h
    have errshape : ∀ {e : PErr}, (∃ s, e = PErr.err s) →
        e = PErr.unreachablePanic → False := by
      rintro e ⟨s, rfl⟩ he
      cases he
    cases mode with
    | value =>
      simp only [parseF, parseWhitespace] at h
      cases hp : (wsLoop st.rem st.line st.col).peek with
      | error e =>
        simp [hp] at h
        exact errshape (peek_err hp) h
      | ok c =>
        simp only [hp] at h
        split_ifs at h
        · exact ih _ _ h
        · simp only [Option.some.injEq] at h
          exact errshape (parseString_err h) rfl
        · exact ih _ _ h
        · simp only [Option.some.injEq] at h
          exact errshape (parseNumber_err h) rfl
        · simp only [Option.some.injEq] at h
          exact errshape (parseIntrisic_err h) rfl
    | array =>
      simp only [parseF] at h
      cases hc : parseChar 91 st with
      | error e =>
        simp [hc] at h
        exact errshape (parseChar_err hc) h
      | ok st1 =>
        simp only [hc] at h
        cases hp : st1.peek with
        | error e =>
          simp [hp] at h
          exact errshape (peek_err hp) h
        | ok c =>
          simp only [hp] at h
          split_ifs at h
          · cases hcon : st1.consume with
            | error e =>
              simp [hcon] at h
              exact errshape (consume_err hcon) h
            | ok st2 => simp [hcon] at h
          · exact ih _ _ h
    | arrayLoop vals =>
      simp only [parseF, parseWhitespace] at h
      cases hv : parseF n .value (wsLoop st.rem st.line st.col) with
      | none => simp [hv] at h
      | some res =>
        simp only [hv] at h
        cases res with
        | error e =>
          simp at h
          subst h
          exact ih _ _ hv
        | ok p =>
          obtain ⟨v2, st2⟩ := p
          simp only [parseWhitespace] at h
          cases hnx : (wsLoop st2.rem st2.line st2.col).next with
          | error e =>
            simp [hnx] at h
            exact errshape (next_err hnx) h
          | ok p2 =>
            obtain ⟨c, st4⟩ := p2
            simp only [hnx] at h
            split_ifs at h
            · simp at h
            · exact ih _ _ h
            · simp at h
    | object =>
      simp only [parseF, parseWhitespace] at h
      cases hc : parseChar 123 st with
      | error e =>
        simp [hc] at h
        exact errshape (parseChar_err hc) h
      | ok st1 =>
        simp only [hc] at h
        cases hp : (wsLoop st1.rem st1.line st1.col).peek with
        | error e =>
          simp [hp] at h
          exact errshape (peek_err hp) h
        | ok c =>
          simp only [hp] at h
          split_ifs at h
          · exact ih _ _ h
          · cases hcon : (wsLoop st1.rem st1.line st1.col).consume with
            | error e =>
              simp [hcon] at h
              exact errshape (consume_err hcon) h
            | ok st3 => simp [hcon] at h
          · simp at h
    | objLoop obj =>
      simp only [parseF] at h
      cases hs : parseString st with
      | error e =>
        simp [hs] at h
        exact errshape (parseString_err hs) h
      | ok p =>
        obtain ⟨kv, st1⟩ := p
        simp only [hs] at h
        cases hshape : kv
        case String key =>
          subst hshape
          simp only [parseWhitespace] at h
          cases hc : parseChar 58 (wsLoop st1.rem st1.line st1.col) with
          | error e =>
            simp [hc] at h
            exact errshape (parseChar_err hc) h
          | ok st3 =>
            simp only [hc] at h
            cases hv : parseF n .value st3 with
            | none => simp [hv] at h
            | some res =>
              simp only [hv] at h
              cases res with
              | error e =>
                simp at h
                subst h
                exact ih _ _ hv
              | ok p2 =>
                obtain ⟨val, st4⟩ := p2
                simp only [parseWhitespace] at h
                cases hnx : (wsLoop st4.rem st4.line st4.col).next with
                | error e =>
                  simp [hnx] at h
                  exact errshape (next_err hnx) h
                | ok p3 =>
                  obtain ⟨c, st6⟩ := p3
                  simp only [hnx] at h
                  split_ifs at h
                  · simp at h
                  · exact ih _ _ h
                  · simp at h
        all_goals
          obtain ⟨s, hsh⟩ := parseString_shape hs
          simp [hshape] at hsh

/-- Claim C10.  Whenever `parse_string` returns `Ok`, the value is a
`String` variant; consequently the `unreachable!()` branch in
`parse_object`'s key-parsing match is never executed: no run of the
parser ever produces the panic, for any input. -/
theorem c10_parse_string_always_string_no_panic :
    (∀ (st : Ctx) (v : Value) (st' : Ctx), parseString st = .ok (v, st') →
      ∃ s, v = Value.String s) ∧
    ∀ input : List Nat, parse input ≠ .error PErr.unreachablePanic := by
  constructor
  · intro st v st' h
    exact parseString_shape h
  · intro input hcontra
    unfold parse at hcontra
    split at hcontra
    · cases hcontra
    · rename_i e heq
      cases hcontra
      exact parseF_no_panic _ _ _ heq
    · cases hcontra

/-- Claim C10, witness: on the concrete input `"a"` (bytes [34,97,34]),
`parse_string` returns `Ok` of a `String` value. -/
theorem c10_parse_string_always_string_no_panic_witness :
    ∃ s, Value.String [97] = Value.String s :=
  c10_parse_string_always_string_no_panic.1 ⟨[34,97,34], 1, 1⟩
    (Value.String [97]) ⟨[], 1, 4⟩ (by with_unfolding_all rfl)

/-- Claim C3, witness for the amended theorem at the single-space input
`"[ ]"`. -/
theorem c3_array_ws_before_bracket_errs_witness :
    ∃ e, parse (91 :: (([32] : List Nat) ++ [93])) = .error (.err e) :=
  c3_array_ws_before_bracket_errs [32] (by decide) (by decide)

/-- Appending extra input after the remaining bytes of a cursor state. -/
def stApp (t : List Nat) (st : Ctx) : Ctx :=
  ⟨st.rem ++ t, st.line, st.col⟩

theorem wsLoop_append : ∀ (r : List Nat) (l c : Nat) (t : List Nat),
    (wsLoop r l c).rem ≠ [] →
    wsLoop (r ++ t) l c = stApp t (wsLoop r l c) := by
  intro r
  induction r with
  | nil => intro l c t hne; simp [wsLoop] at hne
  | cons b rest ih =>
    intro l c t hne
    rw [wsLoop] at hne ⊢
    rw [List.cons_append, wsLoop]
    split at hne
    · rename_i hws
      simp only [if_pos hws]
      exact ih _ _ _ hne
    · rename_i hws
      simp only [if_neg hws]
      simp [stApp, wsLoop, hws]

theorem peek_append : ∀ {st : Ctx} {b : Nat} (t : List Nat),
    Ctx.peek st = .ok b → Ctx.peek (stApp t st) = .ok b := by
  intro st b t h
  unfold Ctx.peek at h ⊢
  split at h
  · cases h
  · rename_i b2 rest hr
    cases h
    simp [stApp, hr]

theorem consume_append : ∀ {st st' : Ctx} (t : List Nat),
    Ctx.consume st = .ok st' → Ctx.consume (stApp t st) = .ok (stApp t st') := by
  intro st st' t h
  unfold Ctx.consume at h ⊢
  split at h
  · cases h
  · rename_i b rest hr
    cases h
    simp only [stApp, hr, List.cons_append]
    split <;> simp [stApp]

theorem next_append : ∀ {st : Ctx} {b : Nat} {st' : Ctx} (t : List Nat),
    Ctx.next st = .ok (b, st') → Ctx.next (stApp t st) = .ok (b, stApp t st') := by
  intro st b st' t h
  unfold Ctx.next at h ⊢
  split at h
  · cases h
  · rename_i c hp
    rw [peek_append t hp]
    split at h
    · cases h
    · rename_i st2 hc
      cases h
      rw [consume_append t hc]

theorem parseChar_append : ∀ {x : Nat} {st st' : Ctx} (t : List Nat),
    parseChar x st = .ok st' → parseChar x (stApp t st) = .ok (stApp t st') := by
  intro x st st' t h
  unfold parseChar at h ⊢
  split at h
  · cases h
  · rename_i p b st2 hn
    split at h
    · rename_i hbx
      cases h
      rw [next_append t hn]
      simp [hbx]
    · cases h

theorem parseWord_append : ∀ (w : List Nat) {st st' : Ctx} (t : List Nat),
    parseWord w st = .ok st' → parseWord w (stApp t st) = .ok (stApp t st') := by
  intro w
  induction w with
  | nil => intro st st' t h; cases h; rfl
  | cons b rest ih =>
    intro st st' t h
    unfold parseWord at h ⊢
    split at h
    · cases h
    · rename_i st2 hc
      rw [parseChar_append t hc]
      exact ih _ h

theorem digitsGo_append : ∀ (r : List Nat) (l c : Nat) (acc : List Nat)
    {s : List Nat} {st' : Ctx} (t : List Nat),
    digitsGo r l c acc = .ok (s, st') →
    st'.rem ≠ [] ∧ digitsGo (r ++ t) l c acc = .ok (s, stApp t st') := by
  intro r
  induction r with
  | nil => intro l c acc s st' t h; cases h
  | cons b rest ih =>
    intro l c acc s st' t h
    rw [digitsGo] at h
    rw [List.cons_append, digitsGo]
    split at h
    · rename_i hd
      rw [if_pos hd]
      exact ih _ _ _ _ h
    · rename_i hd
      rw [if_neg hd]
      cases h
      exact ⟨by simp, by simp [stApp]⟩

theorem parseDigits_append : ∀ {st : Ctx} {q : ℚ} {st' : Ctx} (t : List Nat),
    parseDigits st = .ok (q, st') →
    st'.rem ≠ [] ∧ parseDigits (stApp t st) = .ok (q, stApp t st') := by
  intro st q st' t h
  unfold parseDigits at h ⊢
  split at h
  · cases h
  · rename_i p s st2 hd
    cases h
    obtain ⟨h1, h2⟩ := digitsGo_append _ _ _ _ t hd
    refine ⟨h1, ?_⟩
    simp only [stApp]
    rw [h2]
    rfl

theorem parseIntrisic_append : ∀ {st : Ctx} {v : Value} {st' : Ctx} (t : List Nat),
    parseIntrisic st = .ok (v, st') →
    parseIntrisic (stApp t st) = .ok (v, stApp t st') := by
  intro st v st' t h
  unfold parseIntrisic at h ⊢
  split at h
  · cases h
  · rename_i c hp
    rw [peek_append t hp]
    split_ifs at h with hc1 hc2 hc3
    · split at h
      · cases h
      · rename_i st2 hw
        cases h
        simp [hc1, parseWord_append _ t hw]
    · split at h
      · cases h
      · rename_i st2 hw
        cases h
        simp [hc1, hc2, parseWord_append _ t hw]
    · split at h
      · cases h
      · rename_i st2 hw
        cases h
        simp [hc1, hc2, hc3, parseWord_append _ t hw]

theorem peek_ok_ne : ∀ {st : Ctx} {b : Nat}, Ctx.peek st = .ok b →
    st.rem ≠ [] := by
  intro st b h
  unfold Ctx.peek at h
  split at h
  · cases h
  · rename_i b2 rest hr
    simp [hr]

theorem hexQuad_append : ∀ (i n : Nat) (r : List Nat) (l c : Nat) {m : Nat}
    {r' : List Nat} {l' c' : Nat} (t : List Nat),
    hexQuad i n r l c = .ok (m, r', l', c') →
    hexQuad i n (r ++ t) l c = .ok (m, r' ++ t, l', c') := by
  intro i
  induction i with
  | zero =>
    intro n r l c m r' l' c' t h
    cases h
    rfl
  | succ i ih =>
    intro n r l c m r' l' c' t h
    cases r with
    | nil => cases h
    | cons d rest =>
      simp only [hexQuad, List.cons_append] at h ⊢
      cases hv : hexVal d with
      | none => rw [hv] at h; cases h
      | some v =>
        rw [hv] at h
        exact ih _ _ _ _ t h

theorem stringLoop_append : ∀ (r : List Nat) (l c : Nat) (acc : List Nat)
    {v : Value} {st' : Ctx} (t : List Nat),
    stringLoop r l c acc = .ok (v, st') →
    stringLoop (r ++ t) l c acc = .ok (v, stApp t st') := by
  intro r l c acc
  induction r, l, c, acc using stringLoop.induct
  next l c x =>
    intro v st' t h; rw [stringLoop.eq_def] at h; simp [adv] at h
  next rest l c acc =>
    intro v st' t h
    rw [stringLoop.eq_def] at h
    simp [adv] at h
    obtain ⟨h1, h2⟩ := h
    subst h2
    rw [List.cons_append, stringLoop.eq_def]
    simp [adv, stApp, h1]
  next l c acc hx =>
    intro v st' t h; rw [stringLoop.eq_def] at h; simp [adv] at h
  next l c acc tail pp1 hx pp2 ih =>
    intro v st' t h; rw [stringLoop.eq_def] at h; simp [adv] at h
    rw [List.cons_append, List.cons_append, stringLoop.eq_def]
    simp [adv]
    exact ih t h
  next l c acc tail pp1 hx1 hx2 pp2 ih =>
    intro v st' t h; rw [stringLoop.eq_def] at h; simp [adv] at h
    rw [List.cons_append, List.cons_append, stringLoop.eq_def]
    simp [adv]
    exact ih t h
  next l c acc tail pp1 hx1 hx2 hx3 pp2 ih =>
    intro v st' t h; rw [stringLoop.eq_def] at h; simp [adv] at h
    rw [List.cons_append, List.cons_append, stringLoop.eq_def]
    simp [adv]
    exact ih t h
  next l c acc tail pp1 hx1 hx2 hx3 hx4 pp2 ih =>
    intro v st' t h; rw [stringLoop.eq_def] at h; simp [adv] at h
    rw [List.cons_append, List.cons_append, stringLoop.eq_def]
    simp [adv]
    exact ih t h
  next l c acc tail pp1 hx1 hx2 hx3 hx4 hx5 pp2 ih =>
    intro v st' t h; rw [stringLoop.eq_def] at h; simp [adv] at h
    rw [List.cons_append, List.cons_append, stringLoop.eq_def]
    simp [adv]
    exact ih t h
  next l c acc tail pp1 hx1 hx2 hx3 hx4 hx5 hx6 pp2 ih =>
    intro v st' t h; rw [stringLoop.eq_def] at h; simp [adv] at h
    rw [List.cons_append, List.cons_append, stringLoop.eq_def]
    simp [adv]
    exact ih t h
  next l c acc tail pp1 hx1 hx2 hx3 hx4 hx5 hx6 hx7 pp2 ih =>
    intro v st' t h; rw [stringLoop.eq_def] at h; simp [adv] at h
    rw [List.cons_append, List.cons_append, stringLoop.eq_def]
    simp [adv]
    exact ih t h
  next l c acc tail pp1 hx1 hx2 hx3 hx4 hx5 hx6 hx7 hx8 pp2 ih =>
    intro v st' t h; rw [stringLoop.eq_def] at h; simp [adv] at h
    rw [List.cons_append, List.cons_append, stringLoop.eq_def]
    simp [adv]
    exact ih t h
  next l c acc tail e2 pp1 hx1 hx2 hx3 hx4 hx5 hx6 hx7 hx8 hx9 pp2 hq =>
    intro v st' t h; rw [stringLoop.eq_def] at h
    have hq' : hexQuad 4 0 tail (adv 117 (adv 92 l c).1 (adv 92 l c).2).1
        (adv 117 (adv 92 l c).1 (adv 92 l c).2).2 = Except.error e2 := hq
    simp [adv] at hq' h
    split at h
    · simp at h
    · rename_i n' r6' l6' c6' heq
      rw [hq'] at heq
      simp at heq
  next l c acc tail n r6 l6 c6 hs pp1 hx1 hx2 hx3 hx4 hx5 hx6 hx7 hx8 hx9 pp2 hq =>
    intro v st' t h; rw [stringLoop.eq_def] at h
    have hq' : hexQuad 4 0 tail (adv 117 (adv 92 l c).1 (adv 92 l c).2).1
        (adv 117 (adv 92 l c).1 (adv 92 l c).2).2 = Except.ok (n, r6, l6, c6) := hq
    simp [adv] at hq' h
    split at h
    · simp at h
    · rename_i n' r6' l6' c6' heq
      rw [hq'] at heq
      simp at heq
      obtain ⟨rfl, rfl, rfl, rfl⟩ := heq
      simp [hs] at h
  next l c acc tail n r6 l6 c6 hs pp1 hx1 hx2 hx3 hx4 hx5 hx6 hx7 hx8 hx9 pp2 hq ih =>
    intro v st' t h; rw [stringLoop.eq_def] at h
    have hq' : hexQuad 4 0 tail (adv 117 (adv 92 l c).1 (adv 92 l c).2).1
        (adv 117 (adv 92 l c).1 (adv 92 l c).2).2 = Except.ok (n, r6, l6, c6) := hq
    simp [adv] at hq' h
    split at h
    · simp at h
    · rename_i n' r6' l6' c6' heq
      rw [hq'] at heq
      simp at heq
      obtain ⟨rfl, rfl, rfl, rfl⟩ := heq
      simp [hs] at h
      rw [List.cons_append, List.cons_append, stringLoop.eq_def]
      have happ := hexQuad_append _ _ _ _ _ t hq'
      simp only [adv]
      norm_num
      split
      · rename_i e3 heq
        norm_num at heq
        rw [happ] at heq
        cases heq
      · rename_i n' r6' l6' c6' heq
        norm_num at heq
        rw [happ] at heq
        simp at heq
        obtain ⟨rfl, rfl, rfl, rfl⟩ := heq
        simp [hs]
        exact ih t h
  next l c acc b tail hx1 hx2 hx3 hx4 hx5 hx6 hx7 hx8 hx9 hx10 =>
    intro v st' t h; rw [stringLoop.eq_def] at h
    simp [adv, hx1, hx2, hx3, hx4, hx5, hx6, hx7, hx8, hx9] at h
  next b rest l c acc pp1 hx1 hx2 ih =>
    intro v st' t h; rw [stringLoop.eq_def] at h; simp [adv, hx1, hx2] at h
    rw [List.cons_append, stringLoop.eq_def]
    simp [adv, hx1, hx2]
    exact ih t h

theorem parseString_append : ∀ {st : Ctx} {v : Value} {st' : Ctx} (t : List Nat),
    parseString st = .ok (v, st') →
    parseString (stApp t st) = .ok (v, stApp t st') := by
  intro st v st' t h
  unfold parseString at h ⊢
  split at h
  · cases h
  · rename_i st1 hc
    rw [parseChar_append t hc]
    exact stringLoop_append _ _ _ _ t h
/-- The sign/integer-part stage of `parse_number` (lines 152-159), split out
so that the extension lemmas can be stated per stage. -/
def numSign (c : Nat) (st : Ctx) : Except PErr (ℚ × Ctx) :=
  if c = 45 then
    match st.consume with
    | .error e => .error e
    | .ok st1 =>
      match parseDigits st1 with
      | .error e => .error e
      | .ok (d, st2) => .ok ((-1 : ℚ) * d, st2)
  else if 48 ≤ c ∧ c ≤ 57 then parseDigits st
  else .error (.err (st.error "expected '-' or '0'..'9'"))

/-- The fraction stage of `parse_number` (lines 161-168). -/
def numFrac (c2 : Nat) (num : ℚ) (st3 : Ctx) : Except PErr (ℚ × Ctx) :=
  if c2 = 46 then
    match st3.consume with
    | .error e => .error e
    | .ok st4 =>
      match parseDigits st4 with
      | .error e => .error e
      | .ok (fraction, st5) => .ok (num + fracNorm fraction, st5)
  else .ok (num, st3)

/-- The exponent-sign stage of `parse_number` (lines 172-182). -/
def numExpSign (c4 : Nat) (st7 : Ctx) : Except PErr (ℚ × Ctx) :=
  if c4 = 43 then
    match st7.consume with
    | .error e => .error e
    | .ok st8 => .ok ((1 : ℚ), st8)
  else if c4 = 45 then
    match st7.consume with
    | .error e => .error e
    | .ok st8 => .ok ((-1 : ℚ), st8)
  else .ok ((1 : ℚ), st7)

/-- `parseNumber` re-expressed through the named stages. -/
theorem parseNumber_eq (st : Ctx) : parseNumber st =
    (match st.peek with
    | .error e => .error e
    | .ok c =>
      match numSign c st with
      | .error e => .error e
      | .ok (num, st3) =>
        match st3.peek with
        | .error e => .error e
        | .ok c2 =>
          match numFrac c2 num st3 with
          | .error e => .error e
          | .ok (num2, st6) =>
            match st6.peek with
            | .error e => .error e
            | .ok c3 =>
              if c3 = 101 ∨ c3 = 69 then
                match st6.consume with
                | .error e => .error e
                | .ok st7 =>
                  match st7.peek with
                  | .error e => .error e
                  | .ok c4 =>
                    match numExpSign c4 st7 with
                    | .error e => .error e
                    | .ok (sign, st9) =>
                      match parseDigits st9 with
                      | .error e => .error e
                      | .ok (d, st10) =>
                        .ok (Value.Number (num2 * powf10 (sign * d)), st10)
              else .ok (Value.Number num2, st6)) := by
  with_unfolding_all rfl

theorem numSign_append : ∀ {c : Nat} {st : Ctx} {q : ℚ} {st' : Ctx}
    (t : List Nat), numSign c st = .ok (q, st') →
    numSign c (stApp t st) = .ok (q, stApp t st') := by
  intro c st q st' t h
  unfold numSign at h ⊢
  split_ifs at h ⊢ with hc1 hc2
  · split at h
    · cases h
    · rename_i st1 hcon
      split at h
      · cases h
      · rename_i p d st2 hdg
        cases h
        simp [consume_append t hcon, (parseDigits_append t hdg).2]
  · exact (parseDigits_append t h).2

theorem numFrac_append : ∀ {c2 : Nat} {num : ℚ} {st3 : Ctx} {q : ℚ}
    {st' : Ctx} (t : List Nat), numFrac c2 num st3 = .ok (q, st') →
    numFrac c2 num (stApp t st3) = .ok (q, stApp t st') := by
  intro c2 num st3 q st' t h
  unfold numFrac at h ⊢
  split_ifs at h ⊢ with hc
  · split at h
    · cases h
    · rename_i st4 hcon
      split at h
      · cases h
      · rename_i p fr st5 hdg
        cases h
        simp [consume_append t hcon, (parseDigits_append t hdg).2]
  · cases h
    rfl

theorem numExpSign_append : ∀ {c4 : Nat} {st7 : Ctx} {q : ℚ} {st' : Ctx}
    (t : List Nat), numExpSign c4 st7 = .ok (q, st') →
    numExpSign c4 (stApp t st7) = .ok (q, stApp t st') := by
  intro c4 st7 q st' t h
  unfold numExpSign at h ⊢
  split_ifs at h ⊢ with hc1 hc2
  · split at h
    · cases h
    · rename_i st8 hcon
      cases h
      simp [consume_append t hcon]
  · split at h
    · cases h
    · rename_i st8 hcon
      cases h
      simp [consume_append t hcon]
  · cases h
    rfl

theorem parseNumber_append : ∀ {st : Ctx} {v : Value} {st' : Ctx}
    (t : List Nat), parseNumber st = .ok (v, st') →
    parseNumber (stApp t st) = .ok (v, stApp t st') := by
  intro st v st' t h
  rw [parseNumber_eq] at h
  rw [parseNumber_eq]
  split at h
  · cases h
  · rename_i c hp
    split at h
    · cases h
    · rename_i p num st3 heq1
      split at h
      · cases h
      · rename_i c2 hp2
        split at h
        · cases h
        · rename_i p2 num2 st6 heq2
          split at h
          · cases h
          · rename_i c3 hp3
            split_ifs at h with hcond
            · split at h
              · cases h
              · rename_i st7 hcon7
                split at h
                · cases h
                · rename_i c4 hp4
                  split at h
                  · cases h
                  · rename_i p3 sign st9 heq3
                    split at h
                    · cases h
                    · rename_i p4 d st10 hdg
                      cases h
                      simp [peek_append t hp, numSign_append t heq1,
                        peek_append t hp2, numFrac_append t heq2,
                        peek_append t hp3, hcond, consume_append t hcon7,
                        peek_append t hp4, numExpSign_append t heq3,
                        (parseDigits_append t hdg).2]
            · cases h
              simp [peek_append t hp, numSign_append t heq1,
                peek_append t hp2, numFrac_append t heq2,
                peek_append t hp3, hcond]
theorem next_ok_ne : ∀ {st : Ctx} {p : Nat × Ctx}, Ctx.next st = .ok p →
    st.rem ≠ [] := by
  intro st p h hnil
  unfold Ctx.next at h
  split at h
  · cases h
  · rename_i c hp
    exact peek_ok_ne hp hnil

theorem parseChar_ok_ne : ∀ {x : Nat} {st st' : Ctx},
    parseChar x st = .ok st' → st.rem ≠ [] := by
  intro x st st' h hnil
  unfold parseChar at h
  split at h
  · cases h
  · rename_i p b st2 hn
    exact next_ok_ne hn hnil

/-- On an exhausted input every parsing routine either runs out of fuel or
returns an error; it never returns `Ok`. -/
theorem parseF_nil : ∀ (n : Nat) (mode : PMode) (st : Ctx)
    {r : Value × Ctx}, st.rem = [] → parseF n mode st ≠ some (.ok r) := by
  intro n
  induction n with
  | zero => intro mode st r hnil h; simp [parseF] at h
  | succ n ih =>
    intro mode st r hnil h
    obtain ⟨rem, l, c⟩ := st
    replace hnil : rem = [] := hnil
    subst hnil
    cases mode with
    | value => simp [parseF, parseWhitespace, wsLoop, Ctx.peek] at h
    | array => simp [parseF, parseChar, Ctx.next, Ctx.peek, Ctx.consume] at h
    | arrayLoop vals =>
      simp only [parseF, parseWhitespace, wsLoop] at h
      split at h
      · cases h
      · simp at h
      · rename_i v1 st2 heq
        exact ih .value _ rfl heq
    | object =>
      simp [parseF, parseChar, Ctx.next, Ctx.peek, Ctx.consume] at h
    | objLoop obj =>
      simp [parseF, parseString, parseChar, Ctx.next, Ctx.peek,
        Ctx.consume] at h
theorem stApp_rem (t : List Nat) (st : Ctx) : (stApp t st).rem = st.rem ++ t :=
  rfl

theorem stApp_line (t : List Nat) (st : Ctx) : (stApp t st).line = st.line :=
  rfl

theorem stApp_col (t : List Nat) (st : Ctx) : (stApp t st).col = st.col :=
  rfl

/-- Appending extra bytes after the unread remainder of the input does not
change the outcome of a successful run of any of the parsing routines: the
same value is produced and the extra bytes are left unread. -/
theorem parseF_append : ∀ (n : Nat) (mode : PMode) (st : Ctx) {v : Value}
    {st' : Ctx} (t : List Nat),
    parseF n mode st = some (.ok (v, st')) →
    parseF n mode (stApp t st) = some (.ok (v, stApp t st')) := by
  intro n
  induction n with
  | zero => intro mode st v st' t h; simp [parseF] at h
  | succ n ih =>
    intro mode st v st' t h
    cases mode with
    | value =>
      simp only [parseF, parseWhitespace] at h
      split at h
      · simp at h
      · rename_i c hpk
        have hne := peek_ok_ne hpk
        have hws := wsLoop_append st.rem st.line st.col t hne
        split_ifs at h with h123 h34 h91 hnum
        · have ihres := ih .object _ t h
          simp [parseF, parseWhitespace, stApp_rem, stApp_line, stApp_col, hws, peek_append t hpk,
            h123, ihres]
        · injection h with hf
          have hps := parseString_append t hf
          simp [parseF, parseWhitespace, stApp_rem, stApp_line, stApp_col, hws, peek_append t hpk,
            h123, h34, hps]
        · have ihres := ih .array _ t h
          simp [parseF, parseWhitespace, stApp_rem, stApp_line, stApp_col, hws, peek_append t hpk,
            h123, h34, h91, ihres]
        · injection h with hf
          have hpn := parseNumber_append t hf
          simp [parseF, parseWhitespace, stApp_rem, stApp_line, stApp_col, hws, peek_append t hpk,
            h123, h34, h91, hnum, hpn]
        · injection h with hf
          have hpi := parseIntrisic_append t hf
          simp [parseF, parseWhitespace, stApp_rem, stApp_line, stApp_col, hws, peek_append t hpk,
            h123, h34, h91, hnum, hpi]
    | array =>
      simp only [parseF] at h
      split at h
      · simp at h
      · rename_i st1 hpc
        split at h
        · simp at h
        · rename_i c hpk
          split_ifs at h with h93
          · split at h
            · simp at h
            · rename_i st2 hcon
              cases h
              simp [parseF, stApp_rem, stApp_line, stApp_col, parseChar_append t hpc,
                peek_append t hpk, h93, consume_append t hcon]
          · have ihres := ih (.arrayLoop []) _ t h
            simp [parseF, stApp_rem, stApp_line, stApp_col, parseChar_append t hpc,
              peek_append t hpk, h93, ihres]
    | arrayLoop vals =>
      simp only [parseF, parseWhitespace] at h
      split at h
      · cases h
      · simp at h
      · rename_i v1 st2 heqv
        have hne : (wsLoop st.rem st.line st.col).rem ≠ [] := by
          intro hnil
          exact parseF_nil n .value _ hnil heqv
        have hws := wsLoop_append st.rem st.line st.col t hne
        have ihv := ih .value _ t heqv
        split at h
        · simp at h
        · rename_i p c st4 hnx
          have hne3 := next_ok_ne hnx
          have hws3 := wsLoop_append st2.rem st2.line st2.col t hne3
          have hnxA := next_append t hnx
          split_ifs at h with h93 h44
          · cases h
            simp [parseF, parseWhitespace, stApp_rem, stApp_line, stApp_col, hws, ihv, hws3,
              hnxA, h93]
          · have ihl := ih (.arrayLoop (vals ++ [v1])) _ t h
            simp [parseF, parseWhitespace, stApp_rem, stApp_line, stApp_col, hws, ihv, hws3,
              hnxA, h93, h44, ihl]
          · simp at h
    | object =>
      simp only [parseF, parseWhitespace] at h
      split at h
      · simp at h
      · rename_i st1 hpc
        split at h
        · simp at h
        · rename_i c hpk
          have hne := peek_ok_ne hpk
          have hws := wsLoop_append st1.rem st1.line st1.col t hne
          split_ifs at h with h34 h125
          · have ihres := ih (.objLoop []) _ t h
            simp [parseF, parseWhitespace, stApp_rem, stApp_line, stApp_col, parseChar_append t hpc,
              hws, peek_append t hpk, h34, ihres]
          · split at h
            · simp at h
            · rename_i st3 hcon
              cases h
              simp [parseF, parseWhitespace, stApp_rem, stApp_line, stApp_col, parseChar_append t hpc,
                hws, peek_append t hpk, h34, h125, consume_append t hcon]
          · simp at h
    | objLoop obj =>
      simp only [parseF, parseWhitespace] at h
      split at h
      · simp at h
      · rename_i p kv st1 hps
        split at h
        · rename_i key
          have hpsA := parseString_append t hps
          split at h
          · simp at h
          · rename_i st3 hpc58
            have hne2 := parseChar_ok_ne hpc58
            have hws2 := wsLoop_append st1.rem st1.line st1.col t hne2
            have hpcA := parseChar_append t hpc58
            split at h
            · cases h
            · simp at h
            · rename_i val st4 heqv
              have ihv := ih .value _ t heqv
              split at h
              · simp at h
              · rename_i p2 c st6 hnx
                have hne5 := next_ok_ne hnx
                have hws5 := wsLoop_append st4.rem st4.line st4.col t hne5
                have hnxA := next_append t hnx
                split_ifs at h with h125 h44
                · cases h
                  simp [parseF, parseWhitespace, stApp_rem, stApp_line, stApp_col, hpsA, hws2, hpcA,
                    ihv, hws5, hnxA, h125]
                · have hne7 : (wsLoop st6.rem st6.line st6.col).rem ≠ [] := by
                    intro hnil
                    exact parseF_nil n _ _ hnil h
                  have hws7 := wsLoop_append st6.rem st6.line st6.col t hne7
                  have ihl := ih (.objLoop (btInsert key val obj)) _ t h
                  simp [parseF, parseWhitespace, stApp_rem, stApp_line, stApp_col, hpsA, hws2, hpcA,
                    ihv, hws5, hnxA, h125, h44, hws7, ihl]
                · simp at h
        · simp at h
/-- Claim C6.  The public entry point `parse` does not require the entire
input to be consumed: whenever `parse` returns `Ok v` on an input, it
returns the same `Ok v` on that input followed by any additional content,
silently ignoring the trailing bytes. -/
theorem c6_trailing_content_ignored : ∀ (s t : List Nat) (v : Value),
    parse s = .ok v → parse (s ++ t) = .ok v := by
  intro s t v h
  unfold parse at h
  split at h
  · rename_i p v1 st1 heq
    cases h
    unfold parseValueF at heq
    have happ := parseF_append (fuelBound s) .value ⟨s, 1, 1⟩ t heq
    have happ' : parseF (fuelBound s) .value ⟨s ++ t, 1, 1⟩ =
        some (.ok (v, stApp t st1)) := happ
    exact parse_of_ok happ' (by simp only [fuelBound, List.length_append]; omega)
  · cases h
  · cases h

/-- Claim C6, witness: `"1 "` parses to the number 1, and so does
`"1 x"`, the same input followed by the non-whitespace byte `x`. -/
theorem c6_trailing_content_ignored_witness :
    parse [49, 32] = .ok (Value.Number 1) ∧
    parse [49, 32, 120] = .ok (Value.Number 1) :=
  ⟨by with_unfolding_all rfl,
   c6_trailing_content_ignored [49, 32] [120] (Value.Number 1)
     (by with_unfolding_all rfl)⟩
/-- Once the binary64 accumulator of `parse_digits` is `+∞`, it stays
`+∞` for the rest of the digits. -/
theorem digitsValFGo_inf (len : Nat) : ∀ (i : Nat) (l : List Nat),
    digitsValFGo len i l F64.inf = F64.inf := by
  intro i l
  induction l generalizing i with
  | nil => rfl
  | cons d rest ih =>
    rw [digitsValFGo]
    have hadd : F64.add F64.inf
        ((powf10F (len - i - 1)).mul (.fin ((d : ℚ) - 48))) = F64.inf := by
      cases (powf10F (len - i - 1)).mul (.fin ((d : ℚ) - 48)) <;> rfl
    rw [hadd]
    exact ih _

/-- In binary64 the accumulation of 309 `9` digits overflows: its very
first term is `10^308 * 9`, past the largest finite double. -/
theorem digitsValF_replicate309 :
    digitsValF (List.replicate 309 57) = F64.inf := by
  have hpow : powf10F 308 = F64.fin (10 ^ 308) := by
    rw [powf10F, if_neg]
    rw [f64Max]
    norm_num
  have hlt : f64Max < |(10 : ℚ) ^ 308 * (9 : ℚ)| := by
    rw [f64Max, show |(10 : ℚ) ^ 308 * (9 : ℚ)| = 9 * 10 ^ 308 from by
      rw [abs_of_pos (by positivity)]; ring]
    norm_num
  have hmul : F64.mul (F64.fin ((10 : ℚ) ^ 308)) (.fin (9 : ℚ)) =
      F64.inf := by
    show (if f64Max < |(10 : ℚ) ^ 308 * (9 : ℚ)| then F64.inf
      else F64.fin ((10 : ℚ) ^ 308 * (9 : ℚ))) = F64.inf
    rw [if_pos hlt]
  rw [digitsValF, List.length_replicate]
  rw [show (309 : ℕ) = 308 + 1 from rfl, List.replicate_succ]
  rw [digitsValFGo]
  norm_num
  rw [hpow, hmul]
  rw [show F64.add (.fin 0) F64.inf = F64.inf from rfl]
  exact digitsValFGo_inf _ _ _

/-- On the value `+∞` the binary64 fraction-normalization loop is still
running after any number of iterations. -/
theorem fracNormF_inf : ∀ n, fracNormF n F64.inf = none := by
  intro n
  induction n with
  | zero => rfl
  | succ n ih => simpa [fracNormF, F64.gtOne, F64.div10] using ih

/-- The digit scan of `parse_digits` on a run of `9`s followed by a
space collects exactly the `9`s and stops on the space. -/
theorem digitsGo_digits : ∀ (k l c : Nat) (acc : List Nat),
    digitsGo (List.replicate k 57 ++ [32]) l c acc =
      .ok (acc ++ List.replicate k 57, ⟨[32], l, c + k⟩) := by
  intro k
  induction k with
  | zero =>
    intro l c acc
    simp [digitsGo]
  | succ k ih =>
    intro l c acc
    rw [List.replicate_succ, List.cons_append, digitsGo]
    rw [if_pos (by norm_num)]
    simp only [adv]
    norm_num
    rw [ih]
    simp [List.replicate_succ, List.append_assoc]
    omega

/-- `parse_digits` on the 309-nines fraction part of the C9 input. -/
theorem parseDigits_replicate309 :
    parseDigits ⟨List.replicate 309 57 ++ [32], 1, 3⟩ =
      .ok (digitsVal (List.replicate 309 57), ⟨[32], 1, 312⟩) := by
  have h := digitsGo_digits 309 1 3 []
  simp only [List.nil_append] at h
  norm_num at h
  simp only [parseDigits, h]

/-- In the exact-ℚ model, parsing `"0."` followed by 309 `9`s and a
space runs the fraction branch of `parse_number` on exactly those 309
digits: the result is the normalization of their accumulated value. -/
theorem parse_fraction309_run :
    parse (48 :: 46 :: (List.replicate 309 57 ++ [32])) =
      .ok (Value.Number (fracNorm (digitsVal (List.replicate 309 57)))) := by
  have hpd1 : parseDigits ⟨48 :: 46 :: (List.replicate 309 57 ++ [32]), 1, 1⟩ =
      .ok (0, ⟨46 :: (List.replicate 309 57 ++ [32]), 1, 2⟩) := by
    with_unfolding_all rfl
  have hns : numSign 48 ⟨48 :: 46 :: (List.replicate 309 57 ++ [32]), 1, 1⟩ =
      .ok (0, ⟨46 :: (List.replicate 309 57 ++ [32]), 1, 2⟩) := by
    rw [numSign, if_neg (by norm_num), if_pos (by norm_num)]
    exact hpd1
  have hcons : (⟨46 :: (List.replicate 309 57 ++ [32]), 1, 2⟩ : Ctx).consume =
      .ok ⟨List.replicate 309 57 ++ [32], 1, 3⟩ := by
    with_unfolding_all rfl
  have hnf : numFrac 46 0 ⟨46 :: (List.replicate 309 57 ++ [32]), 1, 2⟩ =
      .ok (fracNorm (digitsVal (List.replicate 309 57)), ⟨[32], 1, 312⟩) := by
    rw [numFrac, if_pos rfl]
    simp only [hcons, parseDigits_replicate309]
    norm_num
  have hpn : parseNumber ⟨48 :: 46 :: (List.replicate 309 57 ++ [32]), 1, 1⟩ =
      .ok (Value.Number (fracNorm (digitsVal (List.replicate 309 57))),
        ⟨[32], 1, 312⟩) := by
    rw [parseNumber_eq]
    simp only [show (⟨48 :: 46 :: (List.replicate 309 57 ++ [32]), 1, 1⟩ :
        Ctx).peek = .ok 48 from rfl, hns,
      show (⟨46 :: (List.replicate 309 57 ++ [32]), 1, 2⟩ : Ctx).peek =
        .ok 46 from rfl, hnf,
      show (⟨[32], 1, 312⟩ : Ctx).peek = .ok 32 from rfl]
    norm_num
  have hrun : parseF (0 + 1) .value
      ⟨48 :: 46 :: (List.replicate 309 57 ++ [32]), 1, 1⟩ =
      some (.ok (Value.Number (fracNorm (digitsVal (List.replicate 309 57))),
        ⟨[32], 1, 312⟩)) := by
    have hws : wsLoop (48 :: 46 :: (List.replicate 309 57 ++ [32])) 1 1 =
        ⟨48 :: 46 :: (List.replicate 309 57 ++ [32]), 1, 1⟩ := by
      rw [wsLoop, if_neg (by norm_num)]
    simp only [parseF, parseWhitespace, hws]
    simp only [show (⟨48 :: 46 :: (List.replicate 309 57 ++ [32]), 1, 1⟩ :
        Ctx).peek = .ok 48 from rfl]
    norm_num [hpn]
  exact parse_of_ok hrun (by simp only [fuelBound]; omega)

/-- Claim C9.  False of the program: parsing does not always terminate.
On the input `"0."` followed by 309 `9` digits and a space, the parser
reaches the fraction-normalization loop of `parse_number` with the
accumulated digit string of 309 nines (first conjunct: in the exact-ℚ
idealization the run does exactly this, and terminates only because ℚ
has no infinity).  In binary64 the accumulation overflows - its first
term `10^308 * 9` already exceeds the largest finite double - so
`fraction` is `+∞` (second conjunct), and the loop
`while fraction > 1.0 { fraction /= 10.0 }` never exits, since `∞ > 1`
and `∞ / 10 = ∞`: no iteration budget makes it finish (third
conjunct). -/
theorem c9_fraction_overflow_loops_forever :
    parse (48 :: 46 :: (List.replicate 309 57 ++ [32])) =
      .ok (Value.Number (fracNorm (digitsVal (List.replicate 309 57)))) ∧
    digitsValF (List.replicate 309 57) = F64.inf ∧
    (∀ n, fracNormF n (digitsValF (List.replicate 309 57)) = none) := by
  refine ⟨parse_fraction309_run, digitsValF_replicate309, ?_⟩
  intro n
  rw [digitsValF_replicate309]
  exact fracNormF_inf n
